import Mathlib

/-!
Verification of the intrusive-list / signal-slot library (`intrusive_list.h`,
`signals.h`).

Two shallow embeddings are developed.

1. A pointer-level heap model of `intrusive::list_element` and the list
   operations that manipulate raw `next`/`prev` pointers
   (`list_element::unlink`, `list::erase`, `list::clear`,
   `list_element::operator=(list_element&&)`).  Addresses are natural
   numbers, `nullptr` is `Option.none`, and the heap is a total map from
   addresses to link records.

2. A state-level model of `signals::signal`: the signal's connection list is
   the list of connection addresses in order, and every in-flight walker
   (`iteration_data`) is a record keyed by identity carrying its `held`
   iterator, its `deleted` flag, and the connection whose walker list it is
   currently linked into.  Slot callbacks are modelled by a small action
   language, and `signal::operator()` by a fuel-based interpreter.
-/

namespace IntrusiveSpec

/-! ## Heap model of `intrusive_list.h` -/

/-- One `intrusive::list_element`: the two raw pointers.  `none` is
`nullptr`, `some a` is a pointer to address `a` (lines 18-19). -/
structure list_element where
  next : Option Nat
  prev : Option Nat
deriving DecidableEq, Repr

/-- The heap: every address holds a link record. -/
def Heap := Nat → list_element

/-- Write the record at one address. -/
def upd (h : Heap) (a : Nat) (v : list_element) : Heap :=
  fun b => if b = a then v else h b

/-- Write only the `next` field at one address. -/
def updNext (h : Heap) (a : Nat) (v : Option Nat) : Heap :=
  upd h a ⟨v, (h a).prev⟩

/-- Write only the `prev` field at one address. -/
def updPrev (h : Heap) (a : Nat) (v : Option Nat) : Heap :=
  upd h a ⟨(h a).next, v⟩

/-- `list_element::unlink` (lines 21-30):
`if (next) next->prev = prev; if (prev) prev->next = next;
ret = next; prev = next = nullptr; return ret;`.
The two neighbour writes happen in source order on the evolving heap. -/
def unlink (x : Nat) (h : Heap) : Heap × Option Nat :=
  let nx := (h x).next
  let pv := (h x).prev
  let h1 := match nx with
    | none => h
    | some a => updPrev h a pv
  let h2 := match pv with
    | none => h1
    | some a => updNext h1 a nx
  (upd h2 x ⟨none, none⟩, nx)

/-- `list::erase` (lines 264-269): remember `pos.me->next` as the returned
iterator, then `pos.me->unlink()`. -/
def erase (x : Nat) (h : Heap) : Heap × Option Nat :=
  let ret := (h x).next
  ((unlink x h).1, ret)

/-- `list_element::operator=(list_element&& r)` (lines 49-60), with `this`
at address `y` and `r` at address `x`: `unlink(); next = r.next;
prev = r.prev; if (next) next->prev = this; if (prev) prev->next = this;
r.next = r.prev = nullptr;`. -/
def move_assign (y x : Nat) (h : Heap) : Heap :=
  let h1 := (unlink y h).1
  let nx := (h1 x).next
  let pv := (h1 x).prev
  let h2 := upd h1 y ⟨nx, pv⟩
  let h3 := match nx with
    | none => h2
    | some a => updPrev h2 a (some y)
  let h4 := match pv with
    | none => h3
    | some a => updNext h3 a (some y)
  upd h4 x ⟨none, none⟩

/-- The loop of `list::clear` (lines 189-195): walk the `next` chain,
nulling both pointers of every node whose `next` is non-null; when a node
with null `next` is reached, null its `prev` and stop.  Fuel-based; the
fuel is irrelevant whenever it exceeds the chain length. -/
def clearLoop : Nat → Heap → Nat → Heap
  | 0, h, _ => h
  | f + 1, h, cur =>
    match (h cur).next with
    | none => updPrev h cur none
    | some save => clearLoop f (upd h cur ⟨none, none⟩) save

/-- `list::clear` (lines 180-196) with the sentinel at address `root`:
`if (empty()) return; root.prev->next = nullptr; next = root.next;
root.next = root.prev = &root;` then the walking loop. -/
def clear (f : Nat) (root : Nat) (h : Heap) : Heap :=
  if (h root).next = some root then h
  else
    let h1 := match (h root).prev with
      | none => h
      | some a => updNext h a none
    let start := (h1 root).next
    let h2 := upd h1 root ⟨some root, some root⟩
    match start with
    | none => h2
    | some s => clearLoop f h2 s

/-! ### Representation predicates -/

/-- `a` and `b` are mutually linked: `a.next == &b && b.prev == &a`. -/
def linked (h : Heap) (a b : Nat) : Prop :=
  (h a).next = some b ∧ (h b).prev = some a

/-- `chain h a l b`: starting at `a`, the doubly-linked chain passes
exactly through the addresses of `l` in order and ends at `b`, with every
consecutive pair mutually linked. -/
def chain (h : Heap) : Nat → List Nat → Nat → Prop
  | a, [], b => linked h a b
  | a, c :: l, b => linked h a c ∧ chain h c l b

/-- `nchain h a l`: following only `next` pointers from `a` passes exactly
through `l` and then hits `nullptr`. -/
def nchain (h : Heap) : Nat → List Nat → Prop
  | a, [] => (h a).next = none
  | a, c :: l => (h a).next = some c ∧ nchain h c l

/-- `nlinks h a l b`: following only `next` pointers from `a` passes
exactly through `l` and reaches `b`. -/
def nlinks (h : Heap) : Nat → List Nat → Nat → Prop
  | a, [], b => (h a).next = some b
  | a, c :: l, b => (h a).next = some c ∧ nlinks h c l b

/-- The list with sentinel `root` is well-formed and holds exactly the
elements of `l` in order: the circular chain `root → l → root` is intact
and all the addresses are distinct. -/
def reps (h : Heap) (root : Nat) (l : List Nat) : Prop :=
  chain h root l root ∧ (root :: l).Nodup

/-! ### Chain lemmas -/

theorem chain_append {h : Heap} {a b c : Nat} {l₁ l₂ : List Nat} :
    chain h a (l₁ ++ c :: l₂) b ↔ chain h a l₁ c ∧ chain h c l₂ b := by
  induction l₁ generalizing a with
  | nil => simp [chain]
  | cons d l₁ ih => simp [chain, ih, and_assoc]

theorem chain_concat {h : Heap} {a b m : Nat} {l : List Nat} :
    chain h a (l ++ [m]) b ↔ chain h a l m ∧ linked h m b := by
  have := @chain_append h a b m l []
  simpa [chain] using this

/-- A chain survives any heap change that does not touch the `next` field
of the nodes it starts from and the `prev` field of the nodes it arrives
at. -/
theorem chain_ext {h h' : Heap} {a b : Nat} {l : List Nat}
    (hn : ∀ u ∈ a :: l, (h' u).next = (h u).next)
    (hp : ∀ u ∈ l ++ [b], (h' u).prev = (h u).prev) :
    chain h a l b → chain h' a l b := by
  induction l generalizing a with
  | nil =>
    intro hc
    exact ⟨(hn a (by simp)).trans hc.1, (hp b (by simp)).trans hc.2⟩
  | cons c l ih =>
    intro hc
    refine ⟨⟨(hn a (by simp)).trans hc.1.1, (hp c (by simp)).trans hc.1.2⟩, ?_⟩
    exact ih (fun u hu => hn u (List.mem_cons_of_mem a hu))
      (fun u hu => hp u (List.mem_cons_of_mem c hu)) hc.2

theorem chain_next_head {h : Heap} {a b : Nat} {l : List Nat}
    (hc : chain h a l b) : (h a).next = some (l.headD b) := by
  cases l with
  | nil => exact hc.1
  | cons c l => exact hc.1.1

theorem chain_prev_last {h : Heap} {a b : Nat} {l : List Nat}
    (hc : chain h a l b) : (h b).prev = some (l.getLastD a) := by
  induction l generalizing a with
  | nil => exact hc.2
  | cons c l ih => rw [List.getLastD_cons]; exact ih hc.2

theorem nlinks_of_chain {h : Heap} {a b : Nat} {l : List Nat}
    (hc : chain h a l b) : nlinks h a l b := by
  induction l generalizing a with
  | nil => exact hc.1
  | cons c l ih => exact ⟨hc.1.1, ih hc.2⟩

theorem nlinks_ext {h h' : Heap} {a b : Nat} {l : List Nat}
    (hn : ∀ u ∈ a :: l, (h' u).next = (h u).next) :
    nlinks h a l b → nlinks h' a l b := by
  induction l generalizing a with
  | nil => intro hc; exact (hn a (by simp)).trans hc
  | cons c l ih =>
    intro hc
    exact ⟨(hn a (by simp)).trans hc.1, ih (fun u hu => hn u (by simp [hu])) hc.2⟩

theorem nchain_of_nlinks {h : Heap} {a m : Nat} {l : List Nat}
    (hc : nlinks h a l m) (hm : (h m).next = none) :
    nchain h a (l ++ [m]) := by
  induction l generalizing a with
  | nil => exact ⟨hc, hm⟩
  | cons c l ih => exact ⟨hc.1, ih hc.2⟩

theorem upd_same {h : Heap} {a : Nat} {v : list_element} : upd h a v a = v := by
  simp [upd]

theorem upd_other {h : Heap} {a b : Nat} {v : list_element} (hb : b ≠ a) :
    upd h a v b = h b := by
  simp [upd, hb]

/-- Unpack the distinctness facts of a well-formed `pre ++ x :: post`
decomposition. -/
theorem nodup_facts {root x : Nat} {pre post : List Nat}
    (hnd : (root :: (pre ++ x :: post)).Nodup) :
    root ≠ x ∧ root ∉ pre ∧ root ∉ post ∧ x ∉ pre ∧ x ∉ post ∧
      pre.Nodup ∧ post.Nodup ∧ ∀ a ∈ pre, a ∉ post := by
  rw [List.nodup_cons] at hnd
  obtain ⟨hroot, hnd2⟩ := hnd
  rw [List.nodup_append] at hnd2
  obtain ⟨hpre, hxp, hdisj⟩ := hnd2
  rw [List.nodup_cons] at hxp
  refine ⟨?_, ?_, ?_, ?_, hxp.1, hpre, hxp.2, ?_⟩
  · intro hq; exact hroot (by simp [hq])
  · intro hq; exact hroot (by simp [hq])
  · intro hq; exact hroot (by simp [hq])
  · intro hq; exact hdisj hq (by simp)
  · intro a ha hb; exact hdisj ha (by simp [hb])

theorem getLastD_mem_cons (l : List Nat) (d : Nat) : l.getLastD d ∈ d :: l := by
  rcases l.eq_nil_or_concat with rfl | ⟨l', m, rfl⟩
  · simp
  · simp [List.getLastD_concat]

/-- Concat-style case split producing a plain `++ [m]` decomposition. -/
theorem eq_nil_or_append (l : List Nat) : l = [] ∨ ∃ l' m, l = l' ++ [m] := by
  rcases l.eq_nil_or_concat with he | ⟨l', m, he⟩
  · exact Or.inl he
  · exact Or.inr ⟨l', m, by simpa [List.concat_eq_append] using he⟩

/-- Full specification of `list_element::unlink` on a linked member `x` of a
well-formed list: the unlink returns the old successor, the list afterwards
represents the sequence with `x` removed, `x`'s two former neighbours are
linked to each other, `x` itself is fully unlinked, and no other address is
touched. -/
theorem unlink_spec {h : Heap} {root x : Nat} {pre post : List Nat}
    (hr : reps h root (pre ++ x :: post)) :
    (unlink x h).2 = some (post.headD root) ∧
    reps (unlink x h).1 root (pre ++ post) ∧
    ((unlink x h).1 (pre.getLastD root)).next = some (post.headD root) ∧
    ((unlink x h).1 (post.headD root)).prev = some (pre.getLastD root) ∧
    (unlink x h).1 x = ⟨none, none⟩ ∧
    (∀ a, a ≠ x → a ≠ pre.getLastD root → a ≠ post.headD root →
      (unlink x h).1 a = h a) := by
  obtain ⟨hch, hnd⟩ := hr
  obtain ⟨hrx, hrpre, hrpost, hxpre, hxpost, hndpre, hndpost, hdisj⟩ :=
    nodup_facts hnd
  have hsp := chain_append.mp hch
  have hxn : (h x).next = some (post.headD root) := chain_next_head hsp.2
  have hxp : (h x).prev = some (pre.getLastD root) := chain_prev_last hsp.1
  have hpvmem : pre.getLastD root ∈ root :: pre := getLastD_mem_cons pre root
  have hnxmem : post.headD root ∈ root :: post := by cases post <;> simp
  have hpvx : pre.getLastD root ≠ x := by
    intro hq; rw [hq] at hpvmem
    rcases List.mem_cons.mp hpvmem with he | he
    · exact hrx he.symm
    · exact hxpre he
  have hnxx : post.headD root ≠ x := by
    intro hq; rw [hq] at hnxmem
    rcases List.mem_cons.mp hnxmem with he | he
    · exact hrx he.symm
    · exact hxpost he
  have e1 : (unlink x h).1 =
      upd (updNext (updPrev h (post.headD root) (some (pre.getLastD root)))
        (pre.getLastD root) (some (post.headD root))) x ⟨none, none⟩ := by
    simp only [unlink, hxn, hxp]
  have e2 : (unlink x h).2 = some (post.headD root) := by
    simp only [unlink, hxn]
  have next_frame : ∀ u, u ≠ x → u ≠ pre.getLastD root →
      ((unlink x h).1 u).next = (h u).next := by
    intro u hux hupv
    rw [e1, upd_other hux]
    simp only [updNext, updPrev, upd]
    rw [if_neg hupv]
    by_cases hunx : u = post.headD root
    · rw [if_pos hunx, hunx]
    · rw [if_neg hunx]
  have prev_frame : ∀ u, u ≠ x → u ≠ post.headD root →
      ((unlink x h).1 u).prev = (h u).prev := by
    intro u hux hunx
    rw [e1, upd_other hux]
    simp only [updNext, updPrev, upd]
    by_cases hupv : u = pre.getLastD root
    · rw [if_pos hupv]
      by_cases hq : pre.getLastD root = post.headD root
      · exact absurd (hupv.trans hq) hunx
      · rw [if_neg hq, hupv]
    · rw [if_neg hupv, if_neg hunx]
  have junc1 : ((unlink x h).1 (pre.getLastD root)).next = some (post.headD root) := by
    rw [e1, upd_other hpvx]
    simp only [updNext, updPrev, upd]
    simp
  have junc2 : ((unlink x h).1 (post.headD root)).prev = some (pre.getLastD root) := by
    rw [e1, upd_other hnxx]
    simp only [updNext, updPrev, upd]
    by_cases hq : post.headD root = pre.getLastD root
    · rw [if_pos hq, if_pos hq.symm]
    · rw [if_neg hq]; simp
  have frame : ∀ a, a ≠ x → a ≠ pre.getLastD root → a ≠ post.headD root →
      (unlink x h).1 a = h a := by
    intro a hax hapv hanx
    rw [e1, upd_other hax]
    simp only [updNext, updPrev, upd]
    rw [if_neg hapv, if_neg hanx]
  have hnd' : (root :: (pre ++ post)).Nodup := by
    refine List.Nodup.sublist ?_ hnd
    exact List.cons_sublist_cons.mpr
      (List.Sublist.append (List.Sublist.refl pre) (List.sublist_cons_self x post))
  -- prefix of the chain, untouched up to its last element
  have pre_keep : ∀ l m, pre = l ++ [m] → chain (unlink x h).1 root l m := by
    intro l m hlm
    have hbase : chain h root l m := (chain_concat.mp (hlm ▸ hsp.1)).1
    refine chain_ext ?_ ?_ hbase
    · intro u hu
      have hum : u ≠ pre.getLastD root := by
        rw [hlm, List.getLastD_concat]
        intro hq; subst hq
        have : (root :: pre).Nodup := by
          refine List.Nodup.sublist ?_ hnd
          exact List.cons_sublist_cons.mpr (List.sublist_append_left pre (x :: post))
        rw [hlm] at this
        rcases List.mem_cons.mp hu with he | he
        · exact (List.nodup_cons.mp this).1 (he ▸ (by simp))
        · have h2 := List.nodup_append.mp (List.nodup_cons.mp this).2
          exact h2.2.2 he (by simp)
      have hux : u ≠ x := by
        rcases List.mem_cons.mp hu with he | he
        · exact he ▸ hrx
        · intro hq; exact hxpre (hq ▸ (by rw [hlm]; exact List.mem_append_left _ he))
      exact next_frame u hux hum
    · intro u hu
      have humem : u ∈ pre := by rw [hlm]; exact hu
      have hux : u ≠ x := fun hq => hxpre (hq ▸ humem)
      have hunx : u ≠ post.headD root := by
        intro hq; rw [hq] at humem
        rcases List.mem_cons.mp hnxmem with he | he
        · exact hrpre (he ▸ humem)
        · exact hdisj _ humem (hq ▸ he)
      exact prev_frame u hux hunx
  -- suffix of the chain, untouched from its first element on
  have post_keep : ∀ y post', post = y :: post' →
      chain (unlink x h).1 y post' root := by
    intro y post' hyp
    have hbase : chain h y post' root := by
      have := hsp.2; rw [hyp] at this; exact this.2
    refine chain_ext ?_ ?_ hbase
    · intro u hu
      have humem : u ∈ post := by rw [hyp]; exact hu
      have hux : u ≠ x := fun hq => hxpost (hq ▸ humem)
      have hupv : u ≠ pre.getLastD root := by
        intro hq; rw [hq] at humem
        rcases List.mem_cons.mp hpvmem with he | he
        · exact hrpost (he ▸ humem)
        · exact hdisj _ he humem
      exact next_frame u hux hupv
    · intro u hu
      rcases List.mem_append.mp hu with he | he
      · have hux : u ≠ x := by
          intro hq
          exact hxpost (hq ▸ (by rw [hyp]; exact List.mem_cons_of_mem y he))
        have huy : u ≠ post.headD root := by
          rw [hyp, List.headD_cons]
          intro hq; subst hq
          rw [hyp] at hndpost
          exact (List.nodup_cons.mp hndpost).1 he
        exact prev_frame u hux huy
      · have he2 : u = root := by simpa using he
        rw [he2]
        have huy : root ≠ post.headD root := by
          rw [hyp, List.headD_cons]
          intro hq; exact hrpost (hq ▸ (by rw [hyp]; simp))
        exact prev_frame root hrx huy
  have hchain' : chain (unlink x h).1 root (pre ++ post) root := by
    cases post with
    | nil =>
      rw [List.append_nil]
      rcases eq_nil_or_append pre with rfl | ⟨l, m, rfl⟩
      · simpa [List.getLastD, List.headD] using And.intro junc1 junc2
      · rw [List.getLastD_concat] at junc1 junc2
        simp only [List.headD_nil] at junc1 junc2
        exact chain_concat.mpr ⟨pre_keep l m rfl, junc1, junc2⟩
    | cons y post' =>
      rw [List.headD_cons] at junc1 junc2
      refine chain_append.mpr ⟨?_, post_keep y post' rfl⟩
      rcases eq_nil_or_append pre with rfl | ⟨l, m, rfl⟩
      · simp only [List.getLastD_nil] at junc1 junc2
        exact ⟨junc1, junc2⟩
      · rw [List.getLastD_concat] at junc1 junc2
        exact chain_concat.mpr ⟨pre_keep l m rfl, junc1, junc2⟩
  exact ⟨e2, ⟨hchain', hnd'⟩, junc1, junc2, by rw [e1]; exact upd_same, frame⟩

/-- `list_element::unlink` on a node that is not linked anywhere
(`next == prev == nullptr`) does nothing and returns `nullptr`. -/
theorem unlink_unlinked {h : Heap} {a : Nat} (ha : h a = ⟨none, none⟩) :
    unlink a h = (h, none) := by
  have hn : (h a).next = none := by rw [ha]
  have hp : (h a).prev = none := by rw [ha]
  simp only [unlink, hn, hp]
  have hupd : upd h a ⟨none, none⟩ = h := by
    funext b
    by_cases hb : b = a
    · rw [hb, upd_same, ha]
    · exact upd_other hb
  rw [hupd]

theorem nchain_ext {h h' : Heap} {a : Nat} {l : List Nat}
    (hn : ∀ u ∈ a :: l, (h' u).next = (h u).next) :
    nchain h a l → nchain h' a l := by
  induction l generalizing a with
  | nil => intro hc; exact (hn a (by simp)).trans hc
  | cons c l ih =>
    intro hc
    exact ⟨(hn a (by simp)).trans hc.1, ih (fun u hu => hn u (by simp [hu])) hc.2⟩

theorem nlinks_concat {h : Heap} {a b m : Nat} {l : List Nat} :
    nlinks h a (l ++ [m]) b ↔ nlinks h a l m ∧ (h m).next = some b := by
  induction l generalizing a with
  | nil => simp [nlinks]
  | cons c l ih => simp [nlinks, ih, and_assoc]

/-- Full specification of `list_element::operator=(list_element&&)` moving
a linked member `x` into fresh, unlinked storage `y`: afterwards the list
represents the same sequence with `y` in `x`'s position, the source `x` is
fully unlinked, and no address other than `x`, `y` and `x`'s two former
neighbours is touched. -/
theorem move_assign_spec {h : Heap} {root x y : Nat} {pre post : List Nat}
    (hr : reps h root (pre ++ x :: post))
    (hy0 : h y = ⟨none, none⟩)
    (hyf : y ∉ root :: (pre ++ x :: post)) :
    reps (move_assign y x h) root (pre ++ y :: post) ∧
    move_assign y x h x = ⟨none, none⟩ ∧
    (∀ a, a ≠ x → a ≠ y → a ≠ pre.getLastD root → a ≠ post.headD root →
      move_assign y x h a = h a) := by
  obtain ⟨hch, hnd⟩ := hr
  obtain ⟨hrx, hrpre, hrpost, hxpre, hxpost, hndpre, hndpost, hdisj⟩ :=
    nodup_facts hnd
  have hyr : y ≠ root := fun hq => hyf (by simp [hq])
  have hypre : y ∉ pre := fun hq => hyf (by simp [hq])
  have hypost : y ∉ post := fun hq => hyf (by simp [hq])
  have hyx : y ≠ x := fun hq => hyf (by simp [hq])
  have hsp := chain_append.mp hch
  have hxn : (h x).next = some (post.headD root) := chain_next_head hsp.2
  have hxp : (h x).prev = some (pre.getLastD root) := chain_prev_last hsp.1
  have hpvmem : pre.getLastD root ∈ root :: pre := getLastD_mem_cons pre root
  have hnxmem : post.headD root ∈ root :: post := by cases post <;> simp
  have hpvx : pre.getLastD root ≠ x := by
    intro hq; rw [hq] at hpvmem
    rcases List.mem_cons.mp hpvmem with he | he
    · exact hrx he.symm
    · exact hxpre he
  have hnxx : post.headD root ≠ x := by
    intro hq; rw [hq] at hnxmem
    rcases List.mem_cons.mp hnxmem with he | he
    · exact hrx he.symm
    · exact hxpost he
  have hpvy : pre.getLastD root ≠ y := by
    intro hq; rw [hq] at hpvmem
    rcases List.mem_cons.mp hpvmem with he | he
    · exact hyr he
    · exact hypre he
  have hnxy : post.headD root ≠ y := by
    intro hq; rw [hq] at hnxmem
    rcases List.mem_cons.mp hnxmem with he | he
    · exact hyr he
    · exact hypost he
  have h1eq : (unlink y h).1 = h := by rw [unlink_unlinked hy0]
  have e1 : move_assign y x h =
      upd (updNext (updPrev (upd h y ⟨some (post.headD root), some (pre.getLastD root)⟩)
        (post.headD root) (some y)) (pre.getLastD root) (some y)) x ⟨none, none⟩ := by
    simp only [move_assign, h1eq, hxn, hxp]
  have next_frame : ∀ u, u ≠ x → u ≠ y → u ≠ pre.getLastD root →
      (move_assign y x h u).next = (h u).next := by
    intro u hux huy hupv
    rw [e1]
    simp only [updNext, updPrev, upd]
    rw [if_neg hux, if_neg hupv]
    by_cases hunx : u = post.headD root
    · rw [if_pos hunx, if_neg (hunx ▸ hnxy), hunx]
    · rw [if_neg hunx, if_neg huy]
  have prev_frame : ∀ u, u ≠ x → u ≠ y → u ≠ post.headD root →
      (move_assign y x h u).prev = (h u).prev := by
    intro u hux huy hunx
    rw [e1]
    simp only [updNext, updPrev, upd]
    rw [if_neg hux]
    by_cases hupv : u = pre.getLastD root
    · rw [if_pos hupv]
      by_cases hq : pre.getLastD root = post.headD root
      · exact absurd (hupv.trans hq) hunx
      · rw [if_neg hq, if_neg (hupv ▸ huy), hupv]
    · rw [if_neg hupv, if_neg hunx, if_neg huy]
  have j1 : (move_assign y x h (pre.getLastD root)).next = some y := by
    rw [e1]
    simp only [updNext, updPrev, upd]
    rw [if_neg hpvx]
    simp
  have j2 : (move_assign y x h (post.headD root)).prev = some y := by
    rw [e1]
    simp only [updNext, updPrev, upd]
    rw [if_neg hnxx]
    by_cases hq : post.headD root = pre.getLastD root
    · rw [if_pos hq, if_pos hq.symm]
    · rw [if_neg hq]; simp
  have j3 : (move_assign y x h y).next = some (post.headD root) := by
    rw [e1]
    simp only [updNext, updPrev, upd]
    rw [if_neg hyx, if_neg (Ne.symm hpvy), if_neg (Ne.symm hnxy)]
    simp
  have j4 : (move_assign y x h y).prev = some (pre.getLastD root) := by
    rw [e1]
    simp only [updNext, updPrev, upd]
    rw [if_neg hyx, if_neg (Ne.symm hpvy), if_neg (Ne.symm hnxy)]
    simp
  have hx0 : move_assign y x h x = ⟨none, none⟩ := by
    rw [e1]; exact upd_same
  have frame : ∀ a, a ≠ x → a ≠ y → a ≠ pre.getLastD root → a ≠ post.headD root →
      move_assign y x h a = h a := by
    intro a hax hay hapv hanx
    rw [e1]
    simp only [updNext, updPrev, upd]
    rw [if_neg hax, if_neg hapv, if_neg hanx, if_neg hay]
  have hnd' : (root :: (pre ++ y :: post)).Nodup := by
    have hnd2 : ((root :: pre) ++ x :: post).Nodup := by simpa using hnd
    have hmid := (@List.nodup_middle _ x (root :: pre) post).mp hnd2
    have hbase : ((root :: pre) ++ post).Nodup := (List.nodup_cons.mp hmid).2
    have hshape : root :: (pre ++ y :: post) = (root :: pre) ++ y :: post := by simp
    rw [hshape]
    refine (@List.nodup_middle _ y (root :: pre) post).mpr (List.nodup_cons.mpr ⟨?_, hbase⟩)
    intro hmem
    rcases List.mem_append.mp hmem with he | he
    · rcases List.mem_cons.mp he with h1 | h1
      · exact hyr h1
      · exact hypre h1
    · exact hypost he
  have pre_keep : ∀ l m, pre = l ++ [m] → chain (move_assign y x h) root l m := by
    intro l m hlm
    have hbase : chain h root l m := (chain_concat.mp (hlm ▸ hsp.1)).1
    refine chain_ext ?_ ?_ hbase
    · intro u hu
      have hum : u ≠ pre.getLastD root := by
        rw [hlm, List.getLastD_concat]
        intro hq; subst hq
        have : (root :: pre).Nodup := by
          refine List.Nodup.sublist ?_ hnd
          exact List.cons_sublist_cons.mpr (List.sublist_append_left pre (x :: post))
        rw [hlm] at this
        rcases List.mem_cons.mp hu with he | he
        · exact (List.nodup_cons.mp this).1 (he ▸ (by simp))
        · have h2 := List.nodup_append.mp (List.nodup_cons.mp this).2
          exact h2.2.2 he (by simp)
      have humem : u ∈ root :: pre := by
        rcases List.mem_cons.mp hu with he | he
        · simp [he]
        · exact List.mem_cons_of_mem root (by rw [hlm]; exact List.mem_append_left _ he)
      have hux : u ≠ x := by
        rcases List.mem_cons.mp humem with he | he
        · exact he ▸ hrx
        · intro hq; exact hxpre (hq ▸ he)
      have huy : u ≠ y := by
        intro hq; rw [hq] at humem
        rcases List.mem_cons.mp humem with he | he
        · exact hyr he
        · exact hypre he
      exact next_frame u hux huy hum
    · intro u hu
      have humem : u ∈ pre := by rw [hlm]; exact hu
      have hux : u ≠ x := fun hq => hxpre (hq ▸ humem)
      have huy : u ≠ y := fun hq => hypre (hq ▸ humem)
      have hunx : u ≠ post.headD root := by
        intro hq; rw [hq] at humem
        rcases List.mem_cons.mp hnxmem with he | he
        · exact hrpre (he ▸ humem)
        · exact hdisj _ humem (hq ▸ he)
      exact prev_frame u hux huy hunx
  have post_keep : ∀ z post', post = z :: post' →
      chain (move_assign y x h) z post' root := by
    intro z post' hyp
    have hbase : chain h z post' root := by
      have := hsp.2; rw [hyp] at this; exact this.2
    refine chain_ext ?_ ?_ hbase
    · intro u hu
      have humem : u ∈ post := by rw [hyp]; exact hu
      have hux : u ≠ x := fun hq => hxpost (hq ▸ humem)
      have huy : u ≠ y := fun hq => hypost (hq ▸ humem)
      have hupv : u ≠ pre.getLastD root := by
        intro hq; rw [hq] at humem
        rcases List.mem_cons.mp hpvmem with he | he
        · exact hrpost (he ▸ humem)
        · exact hdisj _ he humem
      exact next_frame u hux huy hupv
    · intro u hu
      rcases List.mem_append.mp hu with he | he
      · have humem : u ∈ post := by rw [hyp]; exact List.mem_cons_of_mem z he
        have hux : u ≠ x := fun hq => hxpost (hq ▸ humem)
        have huy : u ≠ y := fun hq => hypost (hq ▸ humem)
        have hunx : u ≠ post.headD root := by
          rw [hyp, List.headD_cons]
          intro hq; subst hq
          rw [hyp] at hndpost
          exact (List.nodup_cons.mp hndpost).1 he
        exact prev_frame u hux huy hunx
      · have he2 : u = root := by simpa using he
        rw [he2]
        have hunx : root ≠ post.headD root := by
          rw [hyp, List.headD_cons]
          intro hq; exact hrpost (hq ▸ (by rw [hyp]; simp))
        exact prev_frame root hrx hyr.symm hunx
  have hchain' : chain (move_assign y x h) root (pre ++ y :: post) root := by
    refine chain_append.mpr ⟨?_, ?_⟩
    · -- root .. pre .. y
      rcases eq_nil_or_append pre with rfl | ⟨l, m, rfl⟩
      · simp only [List.getLastD_nil] at j1 j4
        exact ⟨j1, j4⟩
      · rw [List.getLastD_concat] at j1 j4
        exact chain_concat.mpr ⟨pre_keep l m rfl, j1, j4⟩
    · -- y .. post .. root
      cases post with
      | nil =>
        simp only [List.headD_nil] at j2 j3
        exact ⟨j3, j2⟩
      | cons z post' =>
        rw [List.headD_cons] at j2 j3
        exact ⟨⟨j3, j2⟩, post_keep z post' rfl⟩
  exact ⟨⟨hchain', hnd'⟩, hx0, frame⟩

/-- The `clear` walking loop zeroes exactly the nodes of the null-terminated
`next` chain it starts on and touches nothing else. -/
theorem clearLoop_spec :
    ∀ (l : List Nat) (f a : Nat) (h : Heap), nchain h a l → (a :: l).Nodup →
      l.length + 1 ≤ f →
      (∀ u ∈ a :: l, clearLoop f h a u = ⟨none, none⟩) ∧
      (∀ u, u ∉ a :: l → clearLoop f h a u = h u) := by
  intro l
  induction l with
  | nil =>
    intro f a h hc hnd hf
    obtain ⟨f', rfl⟩ : ∃ f', f = f' + 1 := ⟨f - 1, by omega⟩
    have hc0 : (h a).next = none := hc
    have hstep : clearLoop (f' + 1) h a = updPrev h a none := by
      simp only [clearLoop, hc0]
    constructor
    · intro u hu
      have hu2 : u = a := by simpa using hu
      rw [hu2, hstep]
      simp only [updPrev, upd_same]
      rw [hc0]
    · intro u hu
      have hu2 : u ≠ a := by simpa using hu
      rw [hstep]
      exact upd_other hu2
  | cons c l ih =>
    intro f a h hc hnd hf
    obtain ⟨f', rfl⟩ : ∃ f', f = f' + 1 := ⟨f - 1, by omega⟩
    have hc1 : (h a).next = some c := hc.1
    have hstep : clearLoop (f' + 1) h a =
        clearLoop f' (upd h a ⟨none, none⟩) c := by
      simp only [clearLoop, hc1]
    have hanotin : a ∉ c :: l := (List.nodup_cons.mp hnd).1
    have hc' : nchain (upd h a ⟨none, none⟩) c l := by
      refine nchain_ext ?_ hc.2
      intro u hu
      rw [upd_other (fun hq => hanotin (by rw [← hq]; exact hu))]
    have hih := ih f' c (upd h a ⟨none, none⟩) hc' (List.nodup_cons.mp hnd).2
      (by simp at hf; omega)
    constructor
    · intro u hu
      rcases List.mem_cons.mp hu with he | he
      · rw [he, hstep, hih.2 a hanotin, upd_same]
      · rw [hstep]; exact hih.1 u he
    · intro u hu
      have hua : u ≠ a := fun hq => hu (by simp [hq])
      have hucl : u ∉ c :: l := fun hq => hu (List.mem_cons_of_mem a hq)
      rw [hstep, hih.2 u hucl]
      exact upd_other hua

/-- Full specification of `list::clear` on a well-formed list: afterwards
the sentinel is self-linked (the list is empty) and every former member is
fully unlinked; no other address is touched. -/
theorem clear_spec {h : Heap} {root : Nat} {l : List Nat} {f : Nat}
    (hr : reps h root l) (hf : l.length ≤ f) :
    clear f root h root = ⟨some root, some root⟩ ∧
    (∀ a ∈ l, clear f root h a = ⟨none, none⟩) ∧
    (∀ a, a ≠ root → a ∉ l → clear f root h a = h a) := by
  obtain ⟨hc, hnd⟩ := hr
  have hrl : root ∉ l := (List.nodup_cons.mp hnd).1
  have hndl : l.Nodup := (List.nodup_cons.mp hnd).2
  cases l with
  | nil =>
    have h1 : (h root).next = some root := hc.1
    have h2 : (h root).prev = some root := hc.2
    have e0 : clear f root h = h := by
      simp only [clear]
      rw [if_pos h1]
    refine ⟨?_, by simp, fun a _ _ => by rw [e0]⟩
    rw [e0]
    cases hv : h root with
    | mk n p => rw [hv] at h1 h2; simp at h1 h2; simp [h1, h2]
  | cons y l' =>
    have hrn : (h root).next = some y := hc.1.1
    have hrp : (h root).prev = some ((y :: l').getLastD root) :=
      chain_prev_last hc
    have hyr : y ≠ root := by
      intro hq; exact hrl (by simp [hq])
    have hne : ¬((h root).next = some root) := by
      rw [hrn]; intro hq; exact hyr (by simpa using hq)
    have hlasteq : (y :: l').getLastD root = l'.getLastD y := List.getLastD_cons root y l'
    have hlastmem : (y :: l').getLastD root ∈ y :: l' := by
      rw [hlasteq]; exact getLastD_mem_cons l' y
    have hrootlast : root ≠ (y :: l').getLastD root := by
      intro hq; exact hrl (hq ▸ hlastmem)
    have hs : ((updNext h ((y :: l').getLastD root) none) root).next = some y := by
      simp only [updNext]
      rw [upd_other hrootlast]
      exact hrn
    have e1 : clear f root h =
        clearLoop f (upd (updNext h ((y :: l').getLastD root) none) root
          ⟨some root, some root⟩) y := by
      simp only [clear]
      rw [if_neg hne]
      simp only [hrp, hs]
    have hnl : nlinks h y l' root := (nlinks_of_chain hc).2
    have hnch : nchain (upd (updNext h ((y :: l').getLastD root) none) root
        ⟨some root, some root⟩) y l' := by
      rcases eq_nil_or_append l' with rfl | ⟨l'', m, rfl⟩
      · have hly : (y :: ([] : List Nat)).getLastD root = y := rfl
        have : ((upd (updNext h ((y :: ([] : List Nat)).getLastD root) none) root
            ⟨some root, some root⟩) y).next = none := by
          rw [upd_other hyr]
          rw [hly]
          simp [updNext, upd_same]
        exact this
      · have hlm : (y :: (l'' ++ [m])).getLastD root = m := by
          rw [hlasteq, List.getLastD_concat]
        have hsplit := nlinks_concat.mp hnl
        have hmnotin : m ∉ y :: l'' := by
          have : (y :: (l'' ++ [m])).Nodup := hndl
          have h2 := (@List.nodup_middle _ m (y :: l'') []).mp (by simpa using this)
          exact fun hq => (List.nodup_cons.mp h2).1 (by simpa using hq)
        have hn2 : nlinks (upd (updNext h ((y :: (l'' ++ [m])).getLastD root) none) root
            ⟨some root, some root⟩) y l'' m := by
          refine nlinks_ext ?_ hsplit.1
          intro u hu
          have hur : u ≠ root := by
            intro hq; exact hrl (by
              rcases List.mem_cons.mp hu with he | he
              · simp [← hq, he]
              · exact hq ▸ (by simp [he]))
          have hum : u ≠ m := fun hq => hmnotin (hq ▸ hu)
          rw [upd_other hur]
          simp only [updNext, hlm]
          rw [upd_other hum]
        have hmend : ((upd (updNext h ((y :: (l'' ++ [m])).getLastD root) none) root
            ⟨some root, some root⟩) m).next = none := by
          have hmr : m ≠ root := by
            intro hq; exact hrl (by simp [← hq])
          rw [upd_other hmr]
          simp only [updNext, hlm]
          rw [upd_same]
        exact nchain_of_nlinks hn2 hmend
    have hloop := clearLoop_spec l' f y
      (upd (updNext h ((y :: l').getLastD root) none) root ⟨some root, some root⟩)
      hnch hndl (by simp at hf; omega)
    refine ⟨?_, ?_, ?_⟩
    · rw [e1, hloop.2 root (fun hq => hrl hq), upd_same]
    · intro a ha
      rw [e1]
      exact hloop.1 a ha
    · intro a har hal
      rw [e1, hloop.2 a hal, upd_other har]
      have halast : a ≠ (y :: l').getLastD root := fun hq => hal (hq ▸ hlastmem)
      simp only [updNext]
      rw [upd_other halast]


/-! ## State model of `signals.h`

Connections are identified by their address, a `Nat`.  The signal state
tracks `signal::lst` (the connection list, in order), the set of live
`iteration_data` records of all in-flight emissions (keyed by a unique
identity), and an invocation counter per connection (slots are arbitrary
stateful callables, so a slot may behave differently on later calls). -/

/-- `signal::iteration_data` (lines 78-82): one parked walker.  `held` is
the stored iterator (`none` = the end sentinel), `deleted` the flag, and
`parked` identifies the connection whose walker list (`connection::lst`)
currently links this record (`none` once it has been unlinked/cleared). -/
structure iteration_data where
  held : Option Nat
  deleted : Bool
  parked : Option Nat
deriving DecidableEq, Repr

/-- The state of one signal (see the section comment). -/
structure St where
  lst : List Nat
  walkers : List (Nat × iteration_data)
  nextW : Nat
  calls : Nat → Nat

/-- `++cur` / reading `cur->next` inside the connection list: the element
after the occurrence of `c`, `none` when `c` is last (the iterator then
reaches the end sentinel). -/
def nextAfter (c : Nat) : List Nat → Option Nat
  | [] => none
  | a :: l => if a = c then l.head? else nextAfter c l

/-- The walker rewrite of `connection::disconnect` (lines 42-50) applied to
every walker parked on the disconnected connection: mark it deleted, point
`held` at the successor iterator `asit`, and splice it onto the successor's
walker list (`parked := asit`; when `asit` is the end sentinel the list is
cleared instead, so `parked := none` too). -/
def discW (x : Nat) (asit : Option Nat) (ws : List (Nat × iteration_data)) :
    List (Nat × iteration_data) :=
  ws.map fun p => if p.2.parked = some x then (p.1, ⟨asit, true, asit⟩) else p

/-- `connection::disconnect` (lines 38-51) of connection `x`: `unlink()`
yields the successor (`nullptr` when already unlinked, the sentinel when
`x` was last, both giving the end iterator `asit = none`); `x` leaves the
connection list; every walker parked on `x` is redirected by `discW`. -/
def disconnect (x : Nat) (s : St) : St :=
  let asit := if x ∈ s.lst then nextAfter x s.lst else none
  { s with lst := s.lst.erase x, walkers := discW x asit s.walkers }

/-- `signal::connect` (lines 95-101): `lst.push_front(ret)` — the new
connection enters at the front of the connection list. -/
def connect (i : Nat) (s : St) : St :=
  { s with lst := i :: s.lst }

/-- Insertion at position `k` of the connection list (`list::insert` at the
iterator `k` steps from `begin()`); positions past the back insert at the
back.  `signal::lst` is a public member, so a slot can insert at any
position. -/
def insertAt : Nat → Nat → List Nat → List Nat
  | 0, i, l => i :: l
  | _ + 1, i, [] => [i]
  | k + 1, i, a :: l => a :: insertAt k i l

/-- `connection::movelinks2empty` as used by the move operations
(lines 53-75), moving connection `o` into storage `n`: `super::operator=`
first unlinks the target, then rewires `o`'s connection-list neighbours to
`n`; `lst = std::move(r.lst)` clears the target's walker list and
transfers `o`'s walkers; the final loop rewrites each transferred walker's
`held` iterator to the new address. -/
def movelinks2empty (o n : Nat) (s : St) : St :=
  { s with
    lst := (s.lst.erase n).map fun j => if j = o then n else j,
    walkers := s.walkers.map fun p =>
      if p.2.parked = some n then (p.1, { p.2 with parked := none })
      else if p.2.parked = some o then (p.1, ⟨some n, p.2.deleted, some n⟩)
      else p }

/-- What one slot invocation does, as observable by the signal: nothing,
a disconnect, a connect, an insertion at an arbitrary position, a
re-entrant `operator()` on the same signal, or an error. -/
inductive Act where
  | nop
  | disc (x : Nat)
  | conn (i : Nat)
  | insA (k i : Nat)
  | emitS
  | err
deriving DecidableEq, Repr

/-- A slot assignment: `sl i k` is what connection `i`'s callback does on
its `k`-th invocation. -/
def Slots := Nat → Nat → Act

/-- Read the walker with identity `n` (it is always present when read:
the emission step pushed it and nothing removes it before the step ends). -/
def lookupW (n : Nat) : List (Nat × iteration_data) → iteration_data
  | [] => ⟨none, false, none⟩
  | p :: l => if p.1 = n then p.2 else lookupW n l

/-- Remove the walker with identity `n`: the effect of `iteration_data`'s
destructor (`~list_element` unlinks it) at the end of the step. -/
def eraseW (n : Nat) : List (Nat × iteration_data) → List (Nat × iteration_data)
  | [] => []
  | p :: l => if p.1 = n then l else p :: eraseW n l

/-- The loop of `signal::operator()` (lines 103-123) from iterator `cur`
(`none` = the end sentinel, at which the loop stops).  One step: create a
fresh walker `d` with `d.held = cur`, push it on the front of `cur`'s
walker list (`cur->lst.push_front(d)`), invoke the slot, then read `d`;
`d`'s destructor unlinks it; if the callback returned normally the loop
continues at `cur->next` when `d` is untouched, or at `d.held` when `d`
was redirected by a disconnect; if the callback raised, the error
propagates after `d` is destroyed and the rest of the pass is abandoned.
The match on the slot's action is the callback body; a re-entrant
`operator()` is the recursive call on `lst.begin()`.  The fuel only bounds
re-entrant recursion depth (the source has no such bound). -/
def emitLoop (sl : Slots) : Nat → Option Nat → St → St × List Nat × Bool
  | _, none, s => (s, [], true)
  | 0, some _, s => (s, [], false)
  | f + 1, some c, s =>
    let n := s.nextW
    let k := s.calls c
    let s1 : St :=
      { s with walkers := (n, ⟨some c, false, some c⟩) :: s.walkers,
               nextW := n + 1,
               calls := fun j => if j = c then k + 1 else s.calls j }
    let r := match sl c k with
      | Act.nop => (s1, [], true)
      | Act.disc x => (disconnect x s1, [], true)
      | Act.conn i => (connect i s1, [], true)
      | Act.insA p i => ({ s1 with lst := insertAt p i s1.lst }, [], true)
      | Act.err => (s1, [], false)
      | Act.emitS => emitLoop sl f s1.lst.head? s1
    let w := lookupW n r.1.walkers
    let s2 : St := { r.1 with walkers := eraseW n r.1.walkers }
    if r.2.2 then
      let cur2 := if w.deleted then w.held else nextAfter c s2.lst
      let r2 := emitLoop sl f cur2 s2
      (r2.1, c :: (r.2.1 ++ r2.2.1), r2.2.2)
    else (s2, c :: r.2.1, false)

/-- Run one slot action (the match inside `emitLoop`, as a standalone
function).  Returns the new state, the list of connections invoked by
nested emissions, and `false` when an error is propagating (C++ stack
unwinding). -/
def runAct (sl : Slots) (f : Nat) : Act → St → St × List Nat × Bool
  | Act.nop, s => (s, [], true)
  | Act.disc x, s => (disconnect x s, [], true)
  | Act.conn i, s => (connect i s, [], true)
  | Act.insA p i, s => ({ s with lst := insertAt p i s.lst }, [], true)
  | Act.err, s => (s, [], false)
  | Act.emitS, s => emitLoop sl f s.lst.head? s

/-- One unfolding of the loop body through `runAct`. -/
theorem emitLoop_step (sl : Slots) (f : Nat) (c : Nat) (s : St) :
    emitLoop sl (f + 1) (some c) s =
      (let n := s.nextW
       let s1 : St :=
         { s with walkers := (n, ⟨some c, false, some c⟩) :: s.walkers,
                  nextW := n + 1,
                  calls := fun j => if j = c then s.calls c + 1 else s.calls j }
       let r := runAct sl f (sl c (s.calls c)) s1
       let w := lookupW n r.1.walkers
       let s2 : St := { r.1 with walkers := eraseW n r.1.walkers }
       if r.2.2 then
         let cur2 := if w.deleted then w.held else nextAfter c s2.lst
         let r2 := emitLoop sl f cur2 s2
         (r2.1, c :: (r.2.1 ++ r2.2.1), r2.2.2)
       else (s2, c :: r.2.1, false)) := by
  cases hact : sl c (s.calls c) <;> simp only [emitLoop, runAct, hact]

/-- `signal::operator()` (lines 103-123): start at `begin()`.  For an
empty list `head?` is already the end iterator, which is exactly the
source's `empty()` early return. -/
def emit (sl : Slots) (f : Nat) (s : St) : St × List Nat × Bool :=
  emitLoop sl f s.lst.head? s


/-! ### Lemmas about the emission interpreter -/

theorem lookupW_cons_self {n : Nat} {w : iteration_data}
    {ws : List (Nat × iteration_data)} : lookupW n ((n, w) :: ws) = w := by
  simp [lookupW]

theorem eraseW_cons_self {n : Nat} {w : iteration_data}
    {ws : List (Nat × iteration_data)} : eraseW n ((n, w) :: ws) = ws := by
  simp [eraseW]

/-- The invocation counters after a traversal has invoked each element of
`seg` once. -/
def bump (seg : List Nat) (cal : Nat → Nat) : Nat → Nat :=
  fun j => if j ∈ seg then cal j + 1 else cal j

theorem bump_nil {cal : Nat → Nat} : bump [] cal = cal := by
  funext j; simp [bump]

theorem bump_cons {a : Nat} {seg : List Nat} {cal : Nat → Nat} (ha : a ∉ seg) :
    bump seg (fun j => if j = a then cal a + 1 else cal j) = bump (a :: seg) cal := by
  funext j
  by_cases hj : j = a
  · subst hj
    simp [bump, ha]
  · by_cases hjs : j ∈ seg <;> simp [bump, hj, hjs]

theorem nextAfter_append {c : Nat} {q t : List Nat} (hc : c ∉ q) :
    nextAfter c (q ++ c :: t) = t.head? := by
  induction q with
  | nil => simp [nextAfter]
  | cons a q ih =>
    have ha : a ≠ c := fun hq => hc (by simp [hq])
    simp only [List.cons_append, nextAfter, if_neg ha]
    exact ih (fun hq => hc (by simp [hq]))

/-- Traversal over a segment of consecutive connections whose slots all do
nothing: each is invoked once, in order, and the traversal continues at the
rest with only the walker counter and the invocation counters advanced. -/
theorem nop_run (sl : Slots) :
    ∀ (seg : List Nat) (f : Nat) (q rest : List Nat)
      (ws : List (Nat × iteration_data)) (n : Nat) (cal : Nat → Nat),
      (∀ i ∈ seg, sl i (cal i) = Act.nop) →
      (q ++ (seg ++ rest)).Nodup →
      emitLoop sl (f + seg.length) ((seg ++ rest).head?)
          ⟨q ++ (seg ++ rest), ws, n, cal⟩ =
        ((emitLoop sl f rest.head?
            ⟨q ++ (seg ++ rest), ws, n + seg.length, bump seg cal⟩).1,
         seg ++ (emitLoop sl f rest.head?
            ⟨q ++ (seg ++ rest), ws, n + seg.length, bump seg cal⟩).2.1,
         (emitLoop sl f rest.head?
            ⟨q ++ (seg ++ rest), ws, n + seg.length, bump seg cal⟩).2.2) := by
  intro seg
  induction seg with
  | nil =>
    intro f q rest ws n cal hnop hnd
    simp [bump_nil]
  | cons a seg ih =>
    intro f q rest ws n cal hnop hnd
    have hanotq : a ∉ q := by
      intro hq
      have := (List.nodup_append.mp hnd).2.2
      exact this hq (by simp)
    have hanotseg : a ∉ seg := by
      have h1 := (List.nodup_append.mp hnd).2.1
      have h2 : (a ∉ seg ∧ a ∉ rest) ∧ (seg ++ rest).Nodup := by simpa using h1
      exact h2.1.1
    have hfuel : f + (a :: seg).length = (f + seg.length) + 1 := by
      simp; omega
    rw [hfuel]
    have hhead : ((a :: seg) ++ rest).head? = some a := rfl
    rw [hhead]
    simp only [emitLoop]
    rw [hnop a (by simp)]
    simp only [runAct, lookupW_cons_self, eraseW_cons_self]
    have hshape : q ++ ((a :: seg) ++ rest) = q ++ (a :: (seg ++ rest)) := by simp
    have hnext : nextAfter a (q ++ ((a :: seg) ++ rest)) = (seg ++ rest).head? := by
      rw [hshape]; exact nextAfter_append hanotq
    simp only [hnext, Bool.false_eq_true, if_false, if_true]
    have hshape2 : q ++ ((a :: seg) ++ rest) = (q ++ [a]) ++ (seg ++ rest) := by simp
    have hnd2 : ((q ++ [a]) ++ (seg ++ rest)).Nodup := by
      rw [← hshape2]; exact hnd
    have hih := ih f (q ++ [a]) rest ws (n + 1)
      (fun j => if j = a then cal a + 1 else cal j)
      (fun i hi => by
        have hne : i ≠ a := fun hq => hanotseg (hq ▸ hi)
        simpa [hne] using hnop i (by simp [hi])) hnd2
    rw [hshape2]
    rw [hih]
    have hstates :
        (⟨(q ++ [a]) ++ (seg ++ rest), ws, n + 1 + seg.length,
            bump seg fun j => if j = a then cal a + 1 else cal j⟩ : St) =
        ⟨(q ++ [a]) ++ (seg ++ rest), ws, n + (a :: seg).length,
            bump (a :: seg) cal⟩ := by
      have hcn : n + 1 + seg.length = n + (a :: seg).length := by simp; omega
      rw [hcn, bump_cons hanotseg]
    rw [hstates]
    simp


/-- A nop traversal of the whole tail `seg` (the list being `q ++ seg`)
invokes exactly `seg` and ends at the sentinel. -/
theorem nop_tail (sl : Slots) (q seg : List Nat) (f : Nat)
    (ws : List (Nat × iteration_data)) (n : Nat) (cal : Nat → Nat)
    (hnop : ∀ i ∈ seg, sl i (cal i) = Act.nop)
    (hnd : (q ++ seg).Nodup) :
    emitLoop sl (f + seg.length) seg.head? ⟨q ++ seg, ws, n, cal⟩ =
      (⟨q ++ seg, ws, n + seg.length, bump seg cal⟩, seg, true) := by
  have h := nop_run sl seg f q [] ws n cal hnop (by simpa using hnd)
  simpa [emitLoop] using h

/-- Distinctness facts of a `pre ++ c :: rest` decomposition. -/
theorem nodup_facts2 {c : Nat} {pre rest : List Nat}
    (hnd : (pre ++ c :: rest).Nodup) :
    c ∉ pre ∧ c ∉ rest ∧ pre.Nodup ∧ rest.Nodup ∧ ∀ a ∈ pre, a ∉ rest := by
  obtain ⟨hpre, hcr, hdisj⟩ := List.nodup_append.mp hnd
  obtain ⟨hc, hrest⟩ := List.nodup_cons.mp hcr
  exact ⟨fun hq => hdisj hq (by simp), hc, hpre, hrest,
    fun a ha hb => hdisj ha (by simp [hb])⟩

/-- The empty signal: no connections, no walkers. -/
def st0 : St := ⟨[], [], 0, fun _ => 0⟩

/-- Connect the given callbacks one after the other on a fresh signal. -/
def buildSig (ids : List Nat) : St :=
  ids.foldl (fun s i => connect i s) st0

theorem foldl_connect (ids : List Nat) : ∀ s : St,
    ids.foldl (fun s i => connect i s) s =
      ⟨ids.reverse ++ s.lst, s.walkers, s.nextW, s.calls⟩ := by
  induction ids with
  | nil => intro s; cases s; rfl
  | cons a ids ih =>
    intro s
    simp only [List.foldl_cons]
    rw [ih (connect a s)]
    simp [connect]

theorem buildSig_eq (ids : List Nat) :
    buildSig ids = ⟨ids.reverse, [], 0, fun _ => 0⟩ := by
  rw [buildSig, foldl_connect]
  simp [st0]

/-! ### The claims -/

/-- C3: `connect` inserts the new connection at the front of the
connection list, and one emission over `N` connections whose slots do not
mutate the signal invokes each live connection's callback exactly once,
in most-recently-connected-first order. -/
theorem emit_visits_each_once_mru_order (sl : Slots) (ids : List Nat) (f : Nat)
    (hnd : ids.Nodup) (hnop : ∀ i k, sl i k = Act.nop) :
    (∀ i s, (connect i s).lst = i :: s.lst) ∧
    (buildSig ids).lst = ids.reverse ∧
    (emit sl (f + ids.length) (buildSig ids)).2.1 = ids.reverse ∧
    (emit sl (f + ids.length) (buildSig ids)).2.2 = true ∧
    ∀ i ∈ ids, (emit sl (f + ids.length) (buildSig ids)).2.1.count i = 1 := by
  have hb := buildSig_eq ids
  have hrev : ids.reverse.Nodup := by simpa using hnd
  have he : emit sl (f + ids.length) (buildSig ids) =
      (⟨ids.reverse, [], 0 + ids.length, bump ids.reverse fun _ => 0⟩,
        ids.reverse, true) := by
    rw [emit, hb]
    have h2 := nop_tail sl [] ids.reverse f [] 0 (fun _ => 0)
      (fun i _ => hnop i 0) (by simpa using hnd)
    rw [List.length_reverse] at h2
    simpa using h2
  refine ⟨fun i s => rfl, by rw [hb], by rw [he], by rw [he], ?_⟩
  intro i hi
  rw [he]
  exact List.count_eq_one_of_mem hrev (by simpa using hi)

/-- The slots of the C2 scenario: connections A = 0, B = 1, C = 2; B's
callback disconnects A, the others do nothing. -/
def slotsABC : Slots := fun i _ => if i = 1 then Act.disc 0 else Act.nop

/-- C2: after connecting A, B, C (visitation order C, B, A) where B's slot
disconnects A: the first emission invokes C then B, never A, and returns
normally, leaving the list [C, B]; a second emission invokes exactly C
then B. -/
theorem scenario_b_disconnects_a :
    (emit slotsABC 3 (buildSig [0, 1, 2])).2.1 = [2, 1] ∧
    (emit slotsABC 3 (buildSig [0, 1, 2])).2.2 = true ∧
    (emit slotsABC 3 (buildSig [0, 1, 2])).1.lst = [2, 1] ∧
    0 ∉ (emit slotsABC 3 (buildSig [0, 1, 2])).2.1 ∧
    (emit slotsABC 3 (emit slotsABC 3 (buildSig [0, 1, 2])).1).2.1 = [2, 1] ∧
    (emit slotsABC 3 (emit slotsABC 3 (buildSig [0, 1, 2])).1).2.2 = true := by
  refine ⟨rfl, rfl, rfl, by decide, rfl, rfl⟩

/-- `discW` leaves a walker list with no walker parked on `x` unchanged. -/
theorem discW_not_parked {x : Nat} {asit : Option Nat}
    {ws : List (Nat × iteration_data)}
    (hw : ∀ p ∈ ws, p.2.parked ≠ some x) : discW x asit ws = ws := by
  induction ws with
  | nil => rfl
  | cons p ws ih =>
    simp only [discW, List.map_cons]
    rw [if_neg (hw p (by simp))]
    have := ih fun q hq => hw q (by simp [hq])
    simp only [discW] at this
    rw [this]

/-- C9: `disconnect` on an already-disconnected connection (not in the
signal's list, no walkers parked on it — which is the state any
disconnect leaves behind) is a no-op on the whole signal state, so
`disconnect` is idempotent and never an error. -/
theorem disconnect_idempotent (x : Nat) (s : St)
    (hx : x ∉ s.lst)
    (hw : ∀ p ∈ s.walkers, p.2.parked ≠ some x) :
    disconnect x s = s := by
  cases s with
  | mk l ws n cal =>
    simp only [disconnect]
    rw [List.erase_of_not_mem hx, discW_not_parked hw]

/-- Witness for C9 at a concrete state: connection 2 is already
disconnected; disconnecting it again changes nothing. -/
theorem disconnect_idempotent_witness :
    disconnect 2 ⟨[1], [(0, ⟨some 1, false, some 1⟩)], 5, fun _ => 0⟩ =
      ⟨[1], [(0, ⟨some 1, false, some 1⟩)], 5, fun _ => 0⟩ :=
  disconnect_idempotent 2 _ (by decide) (by decide)


/-- One emission step whose slot disconnects the connection being visited:
the planted walker is redirected to the successor iterator and the loop
resumes there. -/
theorem step_disc_self (sl : Slots) (c f : Nat) (conns : List Nat)
    (ws : List (Nat × iteration_data)) (n : Nat) (cal : Nat → Nat)
    (hact : sl c (cal c) = Act.disc c) (hx : c ∈ conns) :
    emitLoop sl (f + 1) (some c) ⟨conns, ws, n, cal⟩ =
      ((emitLoop sl f (nextAfter c conns)
          ⟨conns.erase c, discW c (nextAfter c conns) ws, n + 1,
            fun j => if j = c then cal c + 1 else cal j⟩).1,
       c :: (emitLoop sl f (nextAfter c conns)
          ⟨conns.erase c, discW c (nextAfter c conns) ws, n + 1,
            fun j => if j = c then cal c + 1 else cal j⟩).2.1,
       (emitLoop sl f (nextAfter c conns)
          ⟨conns.erase c, discW c (nextAfter c conns) ws, n + 1,
            fun j => if j = c then cal c + 1 else cal j⟩).2.2) := by
  rw [emitLoop_step]
  simp only [hact, runAct, disconnect, discW, List.map_cons]
  simp only [if_pos hx]
  simp [lookupW_cons_self, eraseW_cons_self, discW]

/-- One emission step whose slot disconnects a connection other than the
one being visited: the planted walker is untouched and the loop continues
at the visited connection's successor in the updated list. -/
theorem step_disc_other (sl : Slots) (c x f : Nat) (conns : List Nat)
    (ws : List (Nat × iteration_data)) (n : Nat) (cal : Nat → Nat)
    (hact : sl c (cal c) = Act.disc x) (hxc : x ≠ c) (hx : x ∈ conns) :
    emitLoop sl (f + 1) (some c) ⟨conns, ws, n, cal⟩ =
      ((emitLoop sl f (nextAfter c (conns.erase x))
          ⟨conns.erase x, discW x (nextAfter x conns) ws, n + 1,
            fun j => if j = c then cal c + 1 else cal j⟩).1,
       c :: (emitLoop sl f (nextAfter c (conns.erase x))
          ⟨conns.erase x, discW x (nextAfter x conns) ws, n + 1,
            fun j => if j = c then cal c + 1 else cal j⟩).2.1,
       (emitLoop sl f (nextAfter c (conns.erase x))
          ⟨conns.erase x, discW x (nextAfter x conns) ws, n + 1,
            fun j => if j = c then cal c + 1 else cal j⟩).2.2) := by
  rw [emitLoop_step]
  simp only [hact, runAct, disconnect, discW, List.map_cons]
  simp only [if_pos hx]
  have hne : ¬((some c : Option Nat) = some x) := by
    simp; exact fun hq => hxc hq.symm
  simp only [hne, if_false]
  simp [lookupW_cons_self, eraseW_cons_self, discW]

/-- C1: during an emission over `pre ++ c :: rest` whose other slots do not
mutate the signal, `c`'s slot disconnects exactly one connection `x` of
the signal (itself, the next-to-be-visited successor, or any other).
After that callback returns the emission invokes exactly the former
unvisited remainder with `x` removed, in list order, no connection twice;
when `x = c` traversal resumes at `c`'s former successor. -/
theorem single_disconnect_mid_emission
    (sl : Slots) (c x f n : Nat) (pre rest : List Nat)
    (ws : List (Nat × iteration_data)) (cal : Nat → Nat)
    (hsl : sl = fun i _ => if i = c then Act.disc x else Act.nop)
    (hnd : (pre ++ c :: rest).Nodup)
    (hx : x ∈ pre ++ c :: rest) :
    (emit sl (f + (pre ++ c :: rest).length) ⟨pre ++ c :: rest, ws, n, cal⟩).2.1
        = pre ++ c :: rest.erase x ∧
    (emit sl (f + (pre ++ c :: rest).length) ⟨pre ++ c :: rest, ws, n, cal⟩).2.2
        = true ∧
    (emit sl (f + (pre ++ c :: rest).length) ⟨pre ++ c :: rest, ws, n, cal⟩).1.lst
        = (pre ++ c :: rest).erase x ∧
    (pre ++ c :: rest.erase x).Nodup := by
  obtain ⟨hcpre, hcrest, hndpre, hndrest, hdisj⟩ := nodup_facts2 hnd
  have hprenop : ∀ i ∈ pre, ∀ k, sl i k = Act.nop := by
    intro i hi k
    rw [hsl]
    have : i ≠ c := fun hq => hcpre (hq ▸ hi)
    simp [this]
  have hcact : ∀ k, sl c k = Act.disc x := by intro k; rw [hsl]; simp
  have hrestnop : ∀ i ∈ rest, ∀ k, sl i k = Act.nop := by
    intro i hi k
    rw [hsl]
    have : i ≠ c := fun hq => hcrest (hq ▸ hi)
    simp [this]
  have hfe : f + (pre ++ c :: rest).length = (f + rest.length + 1) + pre.length := by
    simp; omega
  have hpre_run := nop_run sl pre (f + rest.length + 1) [] (c :: rest) ws n cal
    (fun i hi => hprenop i hi _) (by simpa using hnd)
  simp only [List.nil_append] at hpre_run
  rw [emit]
  rw [hfe, hpre_run]
  simp only [List.head?_cons]
  -- the disconnecting step at c
  by_cases hxc : x = c
  · -- the slot disconnects the connection being visited
    subst hxc
    rw [step_disc_self sl x (f + rest.length) (pre ++ x :: rest) ws
      (n + pre.length) (bump pre cal) (hcact _) hx]
    have hnx : nextAfter x (pre ++ x :: rest) = rest.head? := nextAfter_append hcpre
    have her : (pre ++ x :: rest).erase x = pre ++ rest := by
      rw [List.erase_append_right _ hcpre, List.erase_cons_head]
    rw [hnx, her]
    have htail := nop_tail sl pre rest f
      (discW x rest.head? ws) (n + pre.length + 1)
      (fun j => if j = x then bump pre cal x + 1 else bump pre cal j)
      (fun i hi => hrestnop i hi _) (by rw [← her]; exact hnd.erase x)
    rw [htail]
    refine ⟨?_, rfl, rfl, ?_⟩
    · rw [List.erase_of_not_mem hcrest]
    · rw [List.erase_of_not_mem hcrest]; exact hnd
  · -- the slot disconnects some other connection
    rw [step_disc_other sl c x (f + rest.length) (pre ++ c :: rest) ws
      (n + pre.length) (bump pre cal) (hcact _) hxc hx]
    rcases List.mem_append.mp hx with hxpre | hxcr
    · -- x was already visited (it lies in pre)
      have hxrest : x ∉ rest := hdisj x hxpre
      have her : (pre ++ c :: rest).erase x = pre.erase x ++ c :: rest :=
        List.erase_append_left _ hxpre
      have hcpre' : c ∉ pre.erase x := fun hq => hcpre (List.mem_of_mem_erase hq)
      have hnx : nextAfter c (pre.erase x ++ c :: rest) = rest.head? :=
        nextAfter_append hcpre'
      rw [her, hnx]
      have hnd2 : (pre.erase x ++ c :: rest).Nodup := by
        rw [← her]; exact hnd.erase x
      have hshape : pre.erase x ++ c :: rest = (pre.erase x ++ [c]) ++ rest := by
        simp
      have htail := nop_tail sl (pre.erase x ++ [c]) rest f
        (discW x (nextAfter x (pre ++ c :: rest)) ws) (n + pre.length + 1)
        (fun j => if j = c then bump pre cal c + 1 else bump pre cal j)
        (fun i hi => hrestnop i hi _) (by rw [← hshape]; exact hnd2)
      rw [hshape, htail]
      refine ⟨?_, rfl, rfl, ?_⟩
      · rw [List.erase_of_not_mem hxrest]
      · rw [List.erase_of_not_mem hxrest]; exact hnd
    · -- x lies in the unvisited remainder
      have hxrest : x ∈ rest := by
        rcases List.mem_cons.mp hxcr with he | he
        · exact absurd he hxc
        · exact he
      have hxpre : x ∉ pre := fun hq => hdisj x hq hxrest
      have her : (pre ++ c :: rest).erase x = pre ++ c :: rest.erase x := by
        rw [List.erase_append_right _ hxpre, List.erase_cons_tail]
        simp [Ne.symm hxc]
      have hnx : nextAfter c (pre ++ c :: rest.erase x) = (rest.erase x).head? :=
        nextAfter_append hcpre
      rw [her, hnx]
      have hnd2 : (pre ++ c :: rest.erase x).Nodup := by
        rw [← her]; exact hnd.erase x
      have hshape : pre ++ c :: rest.erase x = (pre ++ [c]) ++ rest.erase x := by
        simp
      have hlen : f + rest.length = (f + 1) + (rest.erase x).length := by
        have h1 := List.length_erase_of_mem hxrest
        have h2 : 0 < rest.length := List.length_pos.mpr (List.ne_nil_of_mem hxrest)
        omega
      have htail := nop_tail sl (pre ++ [c]) (rest.erase x) (f + 1)
        (discW x (nextAfter x (pre ++ c :: rest)) ws) (n + pre.length + 1)
        (fun j => if j = c then bump pre cal c + 1 else bump pre cal j)
        (fun i hi => hrestnop i (List.mem_of_mem_erase hi) _)
        (by rw [← hshape]; exact hnd2)
      rw [hshape, hlen, htail]
      exact ⟨by simp, rfl, rfl, by simpa using hnd2⟩


/-- Witness for C1 at a concrete input: three connections, the middle
one's slot disconnects the next-to-be-visited connection, which is then
skipped with no double invocation. -/
theorem single_disconnect_mid_emission_witness :
    (emit (fun i _ => if i = 1 then Act.disc 2 else Act.nop) 3
        ⟨[0, 1, 2], [], 0, fun _ => 0⟩).2.1 = [0, 1] ∧
    (emit (fun i _ => if i = 1 then Act.disc 2 else Act.nop) 3
        ⟨[0, 1, 2], [], 0, fun _ => 0⟩).2.2 = true ∧
    (emit (fun i _ => if i = 1 then Act.disc 2 else Act.nop) 3
        ⟨[0, 1, 2], [], 0, fun _ => 0⟩).1.lst = [0, 1] ∧
    ([0, 1] : List Nat).Nodup :=
  single_disconnect_mid_emission (fun i _ => if i = 1 then Act.disc 2 else Act.nop)
    1 2 0 0 [0] [2] [] (fun _ => 0) rfl (by decide) (by decide)

/-- Witness for C3 at a concrete input: three connections, no mutation. -/
theorem emit_visits_each_once_mru_order_witness :
    (∀ i s, (connect i s).lst = i :: s.lst) ∧
    (buildSig [0, 1, 2]).lst = [2, 1, 0] ∧
    (emit (fun _ _ => Act.nop) 3 (buildSig [0, 1, 2])).2.1 = [2, 1, 0] ∧
    (emit (fun _ _ => Act.nop) 3 (buildSig [0, 1, 2])).2.2 = true ∧
    ∀ i ∈ [0, 1, 2], (emit (fun _ _ => Act.nop) 3 (buildSig [0, 1, 2])).2.1.count i = 1 :=
  emit_visits_each_once_mru_order (fun _ _ => Act.nop) [0, 1, 2] 0 (by decide)
    (fun _ _ => rfl)

/-- One emission step whose slot connects a fresh connection `i`: the new
connection enters at the front, the walker is untouched, and the loop
continues at the visited connection's successor. -/
theorem step_conn (sl : Slots) (c i f : Nat) (conns : List Nat)
    (ws : List (Nat × iteration_data)) (n : Nat) (cal : Nat → Nat)
    (hact : sl c (cal c) = Act.conn i) :
    emitLoop sl (f + 1) (some c) ⟨conns, ws, n, cal⟩ =
      ((emitLoop sl f (nextAfter c (i :: conns))
          ⟨i :: conns, ws, n + 1, fun j => if j = c then cal c + 1 else cal j⟩).1,
       c :: (emitLoop sl f (nextAfter c (i :: conns))
          ⟨i :: conns, ws, n + 1, fun j => if j = c then cal c + 1 else cal j⟩).2.1,
       (emitLoop sl f (nextAfter c (i :: conns))
          ⟨i :: conns, ws, n + 1, fun j => if j = c then cal c + 1 else cal j⟩).2.2) := by
  rw [emitLoop_step]
  simp only [hact, runAct, connect]
  simp [lookupW_cons_self, eraseW_cons_self]

/-- One emission step whose slot inserts connection `i` at position `p` of
the connection list: the walker is untouched and the loop continues at the
visited connection's successor in the updated list. -/
theorem step_insA (sl : Slots) (c p i f : Nat) (conns : List Nat)
    (ws : List (Nat × iteration_data)) (n : Nat) (cal : Nat → Nat)
    (hact : sl c (cal c) = Act.insA p i) :
    emitLoop sl (f + 1) (some c) ⟨conns, ws, n, cal⟩ =
      ((emitLoop sl f (nextAfter c (insertAt p i conns))
          ⟨insertAt p i conns, ws, n + 1, fun j => if j = c then cal c + 1 else cal j⟩).1,
       c :: (emitLoop sl f (nextAfter c (insertAt p i conns))
          ⟨insertAt p i conns, ws, n + 1, fun j => if j = c then cal c + 1 else cal j⟩).2.1,
       (emitLoop sl f (nextAfter c (insertAt p i conns))
          ⟨insertAt p i conns, ws, n + 1, fun j => if j = c then cal c + 1 else cal j⟩).2.2) := by
  rw [emitLoop_step]
  simp only [hact, runAct]
  simp [lookupW_cons_self, eraseW_cons_self]

/-- One emission step whose slot raises an error: the walker is unlinked
all the same (its destructor runs during unwinding), the state is
otherwise untouched, and the step reports the propagating error without
visiting anything further. -/
theorem step_err (sl : Slots) (c f : Nat) (conns : List Nat)
    (ws : List (Nat × iteration_data)) (n : Nat) (cal : Nat → Nat)
    (hact : sl c (cal c) = Act.err) :
    emitLoop sl (f + 1) (some c) ⟨conns, ws, n, cal⟩ =
      (⟨conns, ws, n + 1, fun j => if j = c then cal c + 1 else cal j⟩, [c], false) := by
  rw [emitLoop_step]
  simp only [hact, runAct]
  simp [eraseW_cons_self]

/-- C8: if the slot of the connection being visited raises an error, the
walker planted for that step is still unlinked exactly as on a normal
return, the connection list and the walker lists are unchanged and
well-formed, the error propagates to the caller of `operator()` after this
cleanup, and the remaining connections of the pass are not visited. -/
theorem error_mid_emission_cleans_up_and_propagates
    (sl : Slots) (c f n : Nat) (pre rest : List Nat)
    (ws : List (Nat × iteration_data)) (cal : Nat → Nat)
    (hsl : sl = fun a _ => if a = c then Act.err else Act.nop)
    (hnd : (pre ++ c :: rest).Nodup) :
    (emit sl (f + (pre ++ c :: rest).length) ⟨pre ++ c :: rest, ws, n, cal⟩).2.1
        = pre ++ [c] ∧
    (emit sl (f + (pre ++ c :: rest).length) ⟨pre ++ c :: rest, ws, n, cal⟩).2.2
        = false ∧
    (emit sl (f + (pre ++ c :: rest).length) ⟨pre ++ c :: rest, ws, n, cal⟩).1.lst
        = pre ++ c :: rest ∧
    (emit sl (f + (pre ++ c :: rest).length) ⟨pre ++ c :: rest, ws, n, cal⟩).1.walkers
        = ws := by
  obtain ⟨hcpre, hcrest, hndpre, hndrest, hdisj⟩ := nodup_facts2 hnd
  have hprenop : ∀ i ∈ pre, sl i (cal i) = Act.nop := by
    intro i hi
    rw [hsl]
    have : i ≠ c := fun hq => hcpre (hq ▸ hi)
    simp [this]
  have hfe : f + (pre ++ c :: rest).length = (f + rest.length + 1) + pre.length := by
    simp; omega
  have hpre_run := nop_run sl pre (f + rest.length + 1) [] (c :: rest) ws n cal
    hprenop (by simpa using hnd)
  simp only [List.nil_append] at hpre_run
  rw [emit, hfe, hpre_run]
  simp only [List.head?_cons]
  rw [step_err sl c (f + rest.length) (pre ++ c :: rest) ws (n + pre.length)
    (bump pre cal) (by rw [hsl]; simp)]
  exact ⟨rfl, rfl, rfl, rfl⟩

/-- Witness for C8 at a concrete input: the middle slot raises; only the
first two connections are invoked, the list survives, no walker leaks. -/
theorem error_mid_emission_witness :
    (emit (fun a _ => if a = 1 then Act.err else Act.nop) 3
        ⟨[0, 1, 2], [], 0, fun _ => 0⟩).2.1 = [0, 1] ∧
    (emit (fun a _ => if a = 1 then Act.err else Act.nop) 3
        ⟨[0, 1, 2], [], 0, fun _ => 0⟩).2.2 = false ∧
    (emit (fun a _ => if a = 1 then Act.err else Act.nop) 3
        ⟨[0, 1, 2], [], 0, fun _ => 0⟩).1.lst = [0, 1, 2] ∧
    (emit (fun a _ => if a = 1 then Act.err else Act.nop) 3
        ⟨[0, 1, 2], [], 0, fun _ => 0⟩).1.walkers = [] :=
  error_mid_emission_cleans_up_and_propagates
    (fun a _ => if a = 1 then Act.err else Act.nop) 1 0 0 [0] [2] [] (fun _ => 0)
    rfl (by decide)


/-! ### Positional facts about `insertAt` -/

theorem mem_insertAt {a i : Nat} : ∀ {p : Nat} {l : List Nat},
    a ∈ insertAt p i l → a = i ∨ a ∈ l := by
  intro p
  induction p with
  | zero =>
    intro l h
    simp only [insertAt] at h
    rcases List.mem_cons.mp h with he | he
    · exact Or.inl he
    · exact Or.inr he
  | succ p ih =>
    intro l h
    cases l with
    | nil =>
      simp only [insertAt] at h
      exact Or.inl (by simpa using h)
    | cons b l =>
      simp only [insertAt] at h
      rcases List.mem_cons.mp h with he | he
      · exact Or.inr (by simp [he])
      · rcases ih he with he2 | he2
        · exact Or.inl he2
        · exact Or.inr (by simp [he2])

theorem length_insertAt {i : Nat} : ∀ (p : Nat) (l : List Nat),
    (insertAt p i l).length = l.length + 1 := by
  intro p
  induction p with
  | zero => intro l; simp [insertAt]
  | succ p ih =>
    intro l
    cases l with
    | nil => simp [insertAt]
    | cons b l => simp [insertAt, ih]

theorem nodup_insertAt {i : Nat} : ∀ (p : Nat) (l : List Nat),
    i ∉ l → l.Nodup → (insertAt p i l).Nodup := by
  intro p
  induction p with
  | zero => intro l hi hnd; simp [insertAt, hi, hnd]
  | succ p ih =>
    intro l hi hnd
    cases l with
    | nil => simp [insertAt]
    | cons b l =>
      simp only [insertAt, List.nodup_cons]
      obtain ⟨hb, hl⟩ := List.nodup_cons.mp hnd
      refine ⟨?_, ih l (fun hq => hi (by simp [hq])) hl⟩
      intro hq
      rcases mem_insertAt hq with he | he
      · exact hi (by simp [he])
      · exact hb he

/-- Inserting within the first `q.length + 1` positions of `q ++ t` stays
inside the `q` part. -/
theorem insertAt_append_left {i : Nat} : ∀ (p : Nat) (q t : List Nat),
    p ≤ q.length → insertAt p i (q ++ t) = insertAt p i q ++ t := by
  intro p
  induction p with
  | zero => intro q t _; simp [insertAt]
  | succ p ih =>
    intro q t hp
    cases q with
    | nil => simp at hp
    | cons b q =>
      simp only [List.cons_append, insertAt, List.cons_append, List.append_eq]
      rw [ih q t (by simpa using hp)]

/-- Inserting past the first `q.length` positions of `q ++ t` lands inside
the `t` part, positionally. -/
theorem insertAt_append_right {i : Nat} : ∀ (q : List Nat) (m : Nat) (t : List Nat),
    insertAt (q.length + m) i (q ++ t) = q ++ insertAt m i t := by
  intro q
  induction q with
  | nil => intro m t; simp
  | cons b q ih =>
    intro m t
    have hlen : (b :: q).length + m = (q.length + m) + 1 := by simp; omega
    rw [hlen]
    simp only [List.cons_append, insertAt, List.append_eq]
    rw [ih m t]

/-- C10: visitation of connections added during an in-progress emission is
purely positional.  With the traversal at `c` (so `pre` is behind the
cursor and `rest` ahead): a connection inserted at a position within `pre`
(behind the cursor) is not visited by this emission; one inserted at a
position inside the remaining tail is visited, in its position; and since
`connect` inserts at the front — behind any cursor — a connection added
via `connect` from a slot is never invoked by the emission in progress,
only by subsequent emissions. -/
theorem insertion_mid_emission_positional
    (c i f f2 n p j : Nat) (pre rest : List Nat)
    (ws : List (Nat × iteration_data))
    (hnd : (pre ++ c :: rest).Nodup)
    (hi : i ∉ pre ++ c :: rest)
    (hp : p ≤ pre.length) (hj : j ≤ rest.length) :
    -- (a) `connect` from within `c`'s slot: not invoked now, at the front
    -- of the list afterwards, invoked first by the next emission
    (emit (fun a k => if a = c ∧ k = 0 then Act.conn i else Act.nop)
        (f + (pre ++ c :: rest).length + 1)
        ⟨pre ++ c :: rest, ws, n, fun _ => 0⟩).2.1 = pre ++ c :: rest ∧
    (emit (fun a k => if a = c ∧ k = 0 then Act.conn i else Act.nop)
        (f + (pre ++ c :: rest).length + 1)
        ⟨pre ++ c :: rest, ws, n, fun _ => 0⟩).2.2 = true ∧
    (emit (fun a k => if a = c ∧ k = 0 then Act.conn i else Act.nop)
        (f + (pre ++ c :: rest).length + 1)
        ⟨pre ++ c :: rest, ws, n, fun _ => 0⟩).1.lst = i :: (pre ++ c :: rest) ∧
    (emit (fun a k => if a = c ∧ k = 0 then Act.conn i else Act.nop)
        (f2 + (i :: (pre ++ c :: rest)).length)
        (emit (fun a k => if a = c ∧ k = 0 then Act.conn i else Act.nop)
          (f + (pre ++ c :: rest).length + 1)
          ⟨pre ++ c :: rest, ws, n, fun _ => 0⟩).1).2.1
      = i :: (pre ++ c :: rest) ∧
    -- (b) insertion at a position behind the cursor: not visited
    (emit (fun a _ => if a = c then Act.insA p i else Act.nop)
        (f + (pre ++ c :: rest).length + 1)
        ⟨pre ++ c :: rest, ws, n, fun _ => 0⟩).2.1 = pre ++ c :: rest ∧
    (emit (fun a _ => if a = c then Act.insA p i else Act.nop)
        (f + (pre ++ c :: rest).length + 1)
        ⟨pre ++ c :: rest, ws, n, fun _ => 0⟩).1.lst
      = insertAt p i pre ++ c :: rest ∧
    -- (c) insertion ahead of the remaining unvisited tail: visited there
    (emit (fun a _ => if a = c then Act.insA (pre.length + 1 + j) i else Act.nop)
        (f + (pre ++ c :: rest).length + 1)
        ⟨pre ++ c :: rest, ws, n, fun _ => 0⟩).2.1
      = pre ++ c :: insertAt j i rest ∧
    (emit (fun a _ => if a = c then Act.insA (pre.length + 1 + j) i else Act.nop)
        (f + (pre ++ c :: rest).length + 1)
        ⟨pre ++ c :: rest, ws, n, fun _ => 0⟩).1.lst
      = pre ++ c :: insertAt j i rest := by
  obtain ⟨hcpre, hcrest, hndpre, hndrest, hdisj⟩ := nodup_facts2 hnd
  have hic : i ≠ c := fun hq => hi (by simp [hq])
  have hipre : i ∉ pre := fun hq => hi (by simp [hq])
  have hirest : i ∉ rest := fun hq => hi (by simp [hq])
  have hfe : f + (pre ++ c :: rest).length + 1
      = (f + rest.length + 2) + pre.length := by simp; omega
  have hf21 : f + rest.length + 2 = (f + rest.length + 1) + 1 := rfl
  have hf1r : f + rest.length + 1 = (f + 1) + rest.length := by omega
  -- part (a): connect from within c's slot
  have hA : emit (fun a k => if a = c ∧ k = 0 then Act.conn i else Act.nop)
      (f + (pre ++ c :: rest).length + 1) ⟨pre ++ c :: rest, ws, n, fun _ => 0⟩ =
      (⟨i :: (pre ++ c :: rest), ws, n + pre.length + 1 + rest.length,
        bump rest fun b => if b = c then bump pre (fun _ => 0) c + 1
          else bump pre (fun _ => 0) b⟩,
       pre ++ c :: rest, true) := by
    have hpre_run := nop_run (fun a k => if a = c ∧ k = 0 then Act.conn i else Act.nop)
      pre (f + rest.length + 2) [] (c :: rest) ws n (fun _ => 0)
      (fun a ha => by
        have : a ≠ c := fun hq => hcpre (hq ▸ ha)
        simp [this]) (by simpa using hnd)
    simp only [List.nil_append] at hpre_run
    rw [emit, hfe, hpre_run]
    simp only [List.head?_cons]
    rw [hf21, step_conn _ c i (f + rest.length + 1) (pre ++ c :: rest) ws
      (n + pre.length) (bump pre fun _ => 0) (by simp [bump, hcpre])]
    have hnx : nextAfter c (i :: (pre ++ c :: rest)) = rest.head? := by
      have h1 : nextAfter c (i :: (pre ++ c :: rest))
          = nextAfter c (pre ++ c :: rest) := by simp [nextAfter, hic]
      rw [h1, nextAfter_append hcpre]
    rw [hnx]
    have hshape : i :: (pre ++ c :: rest) = ((i :: pre) ++ [c]) ++ rest := by simp
    have hnd2 : (((i :: pre) ++ [c]) ++ rest).Nodup := by
      rw [← hshape]
      exact List.nodup_cons.mpr ⟨hi, hnd⟩
    have htail := nop_tail (fun a k => if a = c ∧ k = 0 then Act.conn i else Act.nop)
      ((i :: pre) ++ [c]) rest (f + 1) ws (n + pre.length + 1)
      (fun b => if b = c then bump pre (fun _ => 0) c + 1 else bump pre (fun _ => 0) b)
      (fun a ha => by
        have : a ≠ c := fun hq => hcrest (hq ▸ ha)
        simp [this]) hnd2
    rw [hshape, hf1r, htail]
  -- part (b): insert behind the cursor
  have hB : emit (fun a _ => if a = c then Act.insA p i else Act.nop)
      (f + (pre ++ c :: rest).length + 1) ⟨pre ++ c :: rest, ws, n, fun _ => 0⟩ =
      (⟨insertAt p i pre ++ c :: rest, ws, n + pre.length + 1 + rest.length,
        bump rest fun b => if b = c then bump pre (fun _ => 0) c + 1
          else bump pre (fun _ => 0) b⟩,
       pre ++ c :: rest, true) := by
    have hpre_run := nop_run (fun a _ => if a = c then Act.insA p i else Act.nop)
      pre (f + rest.length + 2) [] (c :: rest) ws n (fun _ => 0)
      (fun a ha => by
        have : a ≠ c := fun hq => hcpre (hq ▸ ha)
        simp [this]) (by simpa using hnd)
    simp only [List.nil_append] at hpre_run
    rw [emit, hfe, hpre_run]
    simp only [List.head?_cons]
    rw [hf21, step_insA _ c p i (f + rest.length + 1) (pre ++ c :: rest) ws
      (n + pre.length) (bump pre fun _ => 0) (by simp)]
    have hins : insertAt p i (pre ++ c :: rest) = insertAt p i pre ++ c :: rest :=
      insertAt_append_left p pre (c :: rest) hp
    have hcinspre : c ∉ insertAt p i pre := by
      intro hq
      rcases mem_insertAt hq with he | he
      · exact hic he.symm
      · exact hcpre he
    have hnx : nextAfter c (insertAt p i (pre ++ c :: rest)) = rest.head? := by
      rw [hins, nextAfter_append hcinspre]
    rw [hnx, hins]
    have hshape : insertAt p i pre ++ c :: rest
        = (insertAt p i pre ++ [c]) ++ rest := by simp
    have hnd2 : ((insertAt p i pre ++ [c]) ++ rest).Nodup := by
      rw [← hshape, ← hins]
      exact nodup_insertAt p _ hi hnd
    have htail := nop_tail (fun a _ => if a = c then Act.insA p i else Act.nop)
      (insertAt p i pre ++ [c]) rest (f + 1) ws (n + pre.length + 1)
      (fun b => if b = c then bump pre (fun _ => 0) c + 1 else bump pre (fun _ => 0) b)
      (fun a ha => by
        have : a ≠ c := fun hq => hcrest (hq ▸ ha)
        simp [this]) hnd2
    rw [hshape, hf1r, htail]
  -- part (c): insert ahead of the remaining tail
  have hC : emit (fun a _ => if a = c then Act.insA (pre.length + 1 + j) i else Act.nop)
      (f + (pre ++ c :: rest).length + 1) ⟨pre ++ c :: rest, ws, n, fun _ => 0⟩ =
      (⟨pre ++ c :: insertAt j i rest, ws,
        n + pre.length + 1 + (insertAt j i rest).length,
        bump (insertAt j i rest) fun b => if b = c then bump pre (fun _ => 0) c + 1
          else bump pre (fun _ => 0) b⟩,
       pre ++ c :: insertAt j i rest, true) := by
    have hpre_run := nop_run
      (fun a _ => if a = c then Act.insA (pre.length + 1 + j) i else Act.nop)
      pre (f + rest.length + 2) [] (c :: rest) ws n (fun _ => 0)
      (fun a ha => by
        have : a ≠ c := fun hq => hcpre (hq ▸ ha)
        simp [this]) (by simpa using hnd)
    simp only [List.nil_append] at hpre_run
    rw [emit, hfe, hpre_run]
    simp only [List.head?_cons]
    rw [hf21, step_insA _ c (pre.length + 1 + j) i (f + rest.length + 1)
      (pre ++ c :: rest) ws (n + pre.length) (bump pre fun _ => 0) (by simp)]
    have hins : insertAt (pre.length + 1 + j) i (pre ++ c :: rest)
        = pre ++ c :: insertAt j i rest := by
      have h1 : pre.length + 1 + j = (pre ++ [c]).length + j := by simp
      have h2 : pre ++ c :: rest = (pre ++ [c]) ++ rest := by simp
      rw [h1, h2, insertAt_append_right]
      simp
    have hnx : nextAfter c (insertAt (pre.length + 1 + j) i (pre ++ c :: rest))
        = (insertAt j i rest).head? := by
      rw [hins, nextAfter_append hcpre]
    rw [hnx, hins]
    have hshape : pre ++ c :: insertAt j i rest
        = (pre ++ [c]) ++ insertAt j i rest := by simp
    have hnd2 : ((pre ++ [c]) ++ insertAt j i rest).Nodup := by
      rw [← hshape, ← hins]
      exact nodup_insertAt _ _ hi hnd
    have hflen : f + rest.length + 1 = f + (insertAt j i rest).length := by
      rw [length_insertAt]; omega
    have htail := nop_tail
      (fun a _ => if a = c then Act.insA (pre.length + 1 + j) i else Act.nop)
      (pre ++ [c]) (insertAt j i rest) f ws (n + pre.length + 1)
      (fun b => if b = c then bump pre (fun _ => 0) c + 1 else bump pre (fun _ => 0) b)
      (fun a ha => by
        have : a ≠ c := by
          intro hq
          rcases mem_insertAt (hq ▸ ha) with he | he
          · exact hic he.symm
          · exact hcrest he
        simp [this]) hnd2
    rw [hshape, hflen, htail]
    simp
  -- assemble the eight conjuncts
  refine ⟨by rw [hA], by rw [hA], by rw [hA], ?_, by rw [hB], by rw [hB],
    by rw [hC], by rw [hC]⟩
  -- (a4): the next emission does invoke the connection added by connect
  rw [hA]
  have hnds : (i :: (pre ++ c :: rest)).Nodup := List.nodup_cons.mpr ⟨hi, hnd⟩
  have htail2 := nop_tail (fun a k => if a = c ∧ k = 0 then Act.conn i else Act.nop)
    [] (i :: (pre ++ c :: rest)) f2 ws (n + pre.length + 1 + rest.length)
    (bump rest fun b => if b = c then bump pre (fun _ => 0) c + 1
      else bump pre (fun _ => 0) b)
    (fun a ha => by
      by_cases hac : a = c
      · subst hac
        simp [bump, hcpre, hcrest]
      · simp [hac]) (by simpa using hnds)
  simp only [List.nil_append] at htail2
  rw [emit]
  rw [htail2]


/-- Witness for C10 at a concrete input: connections [0, 1, 2], the slot
of 1 adds connection 7 by `connect`, by insertion at position 0 (behind),
and by insertion right after itself (ahead). -/
theorem insertion_mid_emission_positional_witness :
    (emit (fun a k => if a = 1 ∧ k = 0 then Act.conn 7 else Act.nop) 4
        ⟨[0, 1, 2], [], 0, fun _ => 0⟩).2.1 = [0, 1, 2] ∧
    (emit (fun a k => if a = 1 ∧ k = 0 then Act.conn 7 else Act.nop) 4
        ⟨[0, 1, 2], [], 0, fun _ => 0⟩).2.2 = true ∧
    (emit (fun a k => if a = 1 ∧ k = 0 then Act.conn 7 else Act.nop) 4
        ⟨[0, 1, 2], [], 0, fun _ => 0⟩).1.lst = [7, 0, 1, 2] ∧
    (emit (fun a k => if a = 1 ∧ k = 0 then Act.conn 7 else Act.nop) 4
        (emit (fun a k => if a = 1 ∧ k = 0 then Act.conn 7 else Act.nop) 4
          ⟨[0, 1, 2], [], 0, fun _ => 0⟩).1).2.1 = [7, 0, 1, 2] ∧
    (emit (fun a _ => if a = 1 then Act.insA 0 7 else Act.nop) 4
        ⟨[0, 1, 2], [], 0, fun _ => 0⟩).2.1 = [0, 1, 2] ∧
    (emit (fun a _ => if a = 1 then Act.insA 0 7 else Act.nop) 4
        ⟨[0, 1, 2], [], 0, fun _ => 0⟩).1.lst = [7, 0, 1, 2] ∧
    (emit (fun a _ => if a = 1 then Act.insA 2 7 else Act.nop) 4
        ⟨[0, 1, 2], [], 0, fun _ => 0⟩).2.1 = [0, 1, 7, 2] ∧
    (emit (fun a _ => if a = 1 then Act.insA 2 7 else Act.nop) 4
        ⟨[0, 1, 2], [], 0, fun _ => 0⟩).1.lst = [0, 1, 7, 2] :=
  insertion_mid_emission_positional 1 7 0 0 0 0 0 [0] [2] []
    (by decide) (by decide) (by decide) (by decide)

/-- C5: a slot that re-enters `operator()` on the same signal.  The inner
activation parks its own walker on every connection it visits — including
the connection the outer activation's walker is parked on — traverses the
whole live list correctly, and completes; the outer traversal then resumes
and completes; afterwards no walker of either activation remains. -/
theorem nested_emission_completes_independently
    (sl : Slots) (c f n : Nat) (pre rest : List Nat)
    (ws : List (Nat × iteration_data))
    (hsl : sl = fun a k => if a = c ∧ k = 0 then Act.emitS else Act.nop)
    (hnd : (pre ++ c :: rest).Nodup) :
    (emit sl (f + 2 * (pre ++ c :: rest).length) ⟨pre ++ c :: rest, ws, n, fun _ => 0⟩).2.1
        = pre ++ c :: ((pre ++ c :: rest) ++ rest) ∧
    (emit sl (f + 2 * (pre ++ c :: rest).length) ⟨pre ++ c :: rest, ws, n, fun _ => 0⟩).2.2
        = true ∧
    (emit sl (f + 2 * (pre ++ c :: rest).length) ⟨pre ++ c :: rest, ws, n, fun _ => 0⟩).1.lst
        = pre ++ c :: rest ∧
    (emit sl (f + 2 * (pre ++ c :: rest).length) ⟨pre ++ c :: rest, ws, n, fun _ => 0⟩).1.walkers
        = ws := by
  obtain ⟨hcpre, hcrest, hndpre, hndrest, hdisj⟩ := nodup_facts2 hnd
  have hfe : f + 2 * (pre ++ c :: rest).length
      = ((f + rest.length + (pre ++ c :: rest).length) + 1) + pre.length := by
    simp; omega
  have hpre_run := nop_run sl pre ((f + rest.length + (pre ++ c :: rest).length) + 1)
    [] (c :: rest) ws n (fun _ => 0)
    (fun a ha => by
      have : a ≠ c := fun hq => hcpre (hq ▸ ha)
      rw [hsl]; simp [this]) (by simpa using hnd)
  simp only [List.nil_append] at hpre_run
  rw [emit, hfe, hpre_run]
  simp only [List.head?_cons]
  -- the re-entrant step at c
  rw [emitLoop_step]
  have hcal : bump pre (fun _ => 0) c = 0 := by simp [bump, hcpre]
  have hact : sl c (bump pre (fun _ => 0) c) = Act.emitS := by
    rw [hsl, hcal]; simp
  simp only [hact, runAct]
  -- the inner, nested emission traverses the whole live list, with its
  -- own walkers pushed on top of the outer activation's walker
  have hinner := nop_tail sl [] (pre ++ c :: rest) (f + rest.length)
    ((n + pre.length, ⟨some c, false, some c⟩) :: ws) (n + pre.length + 1)
    (fun j => if j = c then bump pre (fun _ => 0) c + 1 else bump pre (fun _ => 0) j)
    (fun a ha => by
      by_cases hac : a = c
      · subst hac
        rw [hsl]
        simp [hcal]
      · rw [hsl]; simp [hac]) (by simpa using hnd)
  simp only [List.nil_append] at hinner
  rw [hinner]
  simp only [lookupW_cons_self, eraseW_cons_self]
  -- the outer traversal resumes at c's successor
  have hnx : nextAfter c (pre ++ c :: rest) = rest.head? := nextAfter_append hcpre
  simp only [Bool.false_eq_true, if_false, if_true, hnx]
  have hf1r : f + rest.length + (pre ++ c :: rest).length
      = f + (pre ++ c :: rest).length + rest.length := by omega
  rw [hf1r]
  have houter := nop_tail sl (pre ++ [c]) rest (f + (pre ++ c :: rest).length) ws
    (n + pre.length + 1 + (pre ++ c :: rest).length)
    (bump (pre ++ c :: rest)
      fun j => if j = c then bump pre (fun _ => 0) c + 1 else bump pre (fun _ => 0) j)
    (fun a ha => by
      have : a ≠ c := fun hq => hcrest (hq ▸ ha)
      rw [hsl]; simp [this]) (by
        rw [show (pre ++ [c]) ++ rest = pre ++ c :: rest by simp]
        exact hnd)
  rw [show (pre ++ [c]) ++ rest = pre ++ c :: rest by simp] at houter
  rw [houter]
  exact ⟨rfl, rfl, rfl, rfl⟩

/-- Witness for C5 at a concrete input: connections [0, 1, 2], the slot of
1 re-emits on its first activation: the inner pass visits 0, 1, 2; the
outer pass completes with 2; no walkers remain. -/
theorem nested_emission_completes_independently_witness :
    (emit (fun a k => if a = 1 ∧ k = 0 then Act.emitS else Act.nop) 6
        ⟨[0, 1, 2], [], 0, fun _ => 0⟩).2.1 = [0, 1, 0, 1, 2, 2] ∧
    (emit (fun a k => if a = 1 ∧ k = 0 then Act.emitS else Act.nop) 6
        ⟨[0, 1, 2], [], 0, fun _ => 0⟩).2.2 = true ∧
    (emit (fun a k => if a = 1 ∧ k = 0 then Act.emitS else Act.nop) 6
        ⟨[0, 1, 2], [], 0, fun _ => 0⟩).1.lst = [0, 1, 2] ∧
    (emit (fun a k => if a = 1 ∧ k = 0 then Act.emitS else Act.nop) 6
        ⟨[0, 1, 2], [], 0, fun _ => 0⟩).1.walkers = [] :=
  nested_emission_completes_independently
    (fun a k => if a = 1 ∧ k = 0 then Act.emitS else Act.nop) 1 0 0 [0] [2] []
    rfl (by decide)


theorem map_subst_of_not_mem {o m : Nat} : ∀ {l : List Nat}, o ∉ l →
    l.map (fun j => if j = o then m else j) = l := by
  intro l
  induction l with
  | nil => intro _; rfl
  | cons a l ih =>
    intro ho
    have ha : a ≠ o := fun hq => ho (by simp [hq])
    simp only [List.map_cons, if_neg ha]
    rw [ih fun hq => ho (by simp [hq])]

/-- C6: moving a linked connection `o` into fresh storage `m`
(`connection`'s move operations).  At the pointer level
(`list_element::operator=`) the list neighbours are rewired to the new
address and the source is left unlinked; at the signal level
(`movelinks2empty`) the connection keeps its list position under the new
address and every outstanding walker parked on it is rewritten to the new
address; consequently a subsequent emission still invokes the moved
connection's callback exactly once. -/
theorem move_rewires_links_and_walkers_preserving_subscription
    (h : Heap) (root o m : Nat) (pre post : List Nat)
    (sl : Slots) (f nw : Nat) (ws : List (Nat × iteration_data)) (cal : Nat → Nat)
    (hr : reps h root (pre ++ o :: post))
    (hm0 : h m = ⟨none, none⟩)
    (hmf : m ∉ root :: (pre ++ o :: post))
    (hnop : ∀ i k, sl i k = Act.nop) :
    reps (move_assign m o h) root (pre ++ m :: post) ∧
    move_assign m o h o = ⟨none, none⟩ ∧
    (movelinks2empty o m ⟨pre ++ o :: post, ws, nw, cal⟩).lst = pre ++ m :: post ∧
    (∀ p ∈ ws, p.2.parked = some o →
      (p.1, (⟨some m, p.2.deleted, some m⟩ : iteration_data))
        ∈ (movelinks2empty o m ⟨pre ++ o :: post, ws, nw, cal⟩).walkers) ∧
    (emit sl (f + (pre ++ m :: post).length)
        (movelinks2empty o m ⟨pre ++ o :: post, ws, nw, cal⟩)).2.1
      = pre ++ m :: post ∧
    (emit sl (f + (pre ++ m :: post).length)
        (movelinks2empty o m ⟨pre ++ o :: post, ws, nw, cal⟩)).2.1.count m = 1 := by
  obtain ⟨hms1, hms2, _⟩ := move_assign_spec hr hm0 hmf
  obtain ⟨hopre, hopost⟩ : o ∉ pre ∧ o ∉ post := by
    have := nodup_facts hr.2
    exact ⟨this.2.2.2.1, this.2.2.2.2.1⟩
  have hmo : m ≠ o := fun hq => hmf (by simp [hq])
  have hmlist : m ∉ pre ++ o :: post := fun hq => hmf (List.mem_cons_of_mem root hq)
  have hmap : (pre ++ o :: post).map (fun j => if j = o then m else j)
      = pre ++ m :: post := by
    simp only [List.map_append, List.map_cons]
    rw [map_subst_of_not_mem hopre, map_subst_of_not_mem hopost]
    simp
  have hstate : movelinks2empty o m ⟨pre ++ o :: post, ws, nw, cal⟩ =
      ⟨pre ++ m :: post,
        ws.map fun p =>
          if p.2.parked = some m then (p.1, { p.2 with parked := none })
          else if p.2.parked = some o then (p.1, ⟨some m, p.2.deleted, some m⟩)
          else p,
        nw, cal⟩ := by
    simp only [movelinks2empty]
    rw [List.erase_of_not_mem hmlist, hmap]
  have hnd2 : (pre ++ m :: post).Nodup := (List.nodup_cons.mp hms1.2).2
  have hrun := nop_tail sl [] (pre ++ m :: post) f
    (ws.map fun p =>
      if p.2.parked = some m then (p.1, { p.2 with parked := none })
      else if p.2.parked = some o then (p.1, ⟨some m, p.2.deleted, some m⟩)
      else p)
    nw cal (fun i _ => hnop i _) (by simpa using hnd2)
  simp only [List.nil_append] at hrun
  refine ⟨hms1, hms2, by rw [hstate], ?_, ?_, ?_⟩
  · intro p hp hpo
    rw [hstate]
    have hpm : ¬(p.2.parked = some m) := by
      rw [hpo]; simp; exact fun hq => hmo hq.symm
    refine List.mem_map.mpr ⟨p, hp, ?_⟩
    simp [hpm, hpo]
    exact fun hq => hmo hq.symm
  · rw [emit, hstate, hrun]
  · rw [emit, hstate, hrun]
    exact List.count_eq_one_of_mem hnd2 (by simp)

/-- Witness for C6 at a concrete input: list sentinel 0 holding [1, 2, 3],
connection 2 moved to fresh address 9, one walker parked on 2. -/
theorem move_rewires_links_witness :
    reps (move_assign 9 2 fun a =>
        if a = 0 then ⟨some 1, some 3⟩
        else if a = 1 then ⟨some 2, some 0⟩
        else if a = 2 then ⟨some 3, some 1⟩
        else if a = 3 then ⟨some 0, some 2⟩
        else ⟨none, none⟩) 0 [1, 9, 3] ∧
    move_assign 9 2 (fun a =>
        if a = 0 then ⟨some 1, some 3⟩
        else if a = 1 then ⟨some 2, some 0⟩
        else if a = 2 then ⟨some 3, some 1⟩
        else if a = 3 then ⟨some 0, some 2⟩
        else ⟨none, none⟩) 2 = ⟨none, none⟩ ∧
    (movelinks2empty 2 9 ⟨[1, 2, 3], [(0, ⟨some 2, false, some 2⟩)], 1, fun _ => 0⟩).lst
      = [1, 9, 3] ∧
    (∀ p ∈ [((0 : Nat), (⟨some 2, false, some 2⟩ : iteration_data))],
      p.2.parked = some 2 →
      (p.1, (⟨some 9, p.2.deleted, some 9⟩ : iteration_data))
        ∈ (movelinks2empty 2 9
            ⟨[1, 2, 3], [(0, ⟨some 2, false, some 2⟩)], 1, fun _ => 0⟩).walkers) ∧
    (emit (fun _ _ => Act.nop) 3
        (movelinks2empty 2 9
          ⟨[1, 2, 3], [(0, ⟨some 2, false, some 2⟩)], 1, fun _ => 0⟩)).2.1
      = [1, 9, 3] ∧
    (emit (fun _ _ => Act.nop) 3
        (movelinks2empty 2 9
          ⟨[1, 2, 3], [(0, ⟨some 2, false, some 2⟩)], 1, fun _ => 0⟩)).2.1.count 9
      = 1 :=
  move_rewires_links_and_walkers_preserving_subscription
    (fun a =>
      if a = 0 then ⟨some 1, some 3⟩
      else if a = 1 then ⟨some 2, some 0⟩
      else if a = 2 then ⟨some 3, some 1⟩
      else if a = 3 then ⟨some 0, some 2⟩
      else ⟨none, none⟩)
    0 2 9 [1] [3] (fun _ _ => Act.nop) 0 1
    [(0, ⟨some 2, false, some 2⟩)] (fun _ => 0)
    ⟨⟨⟨rfl, rfl⟩, ⟨rfl, rfl⟩, ⟨rfl, rfl⟩, rfl, rfl⟩, by decide⟩
    rfl (by decide) (fun _ _ => rfl)

/-- C4: erasing/unlinking a linked element `x` of a well-formed list
modifies only `x`'s own link fields and the records of `x`'s two immediate
neighbours, which become linked to each other; every other element's links
are unchanged, and every position other than `x` is still a live position
of the resulting list, which represents the sequence with `x` removed. -/
theorem erase_invalidates_only_erased_position
    (h : Heap) (root x : Nat) (pre post : List Nat)
    (hr : reps h root (pre ++ x :: post)) :
    erase x h = unlink x h ∧
    ((unlink x h).1 (pre.getLastD root)).next = some (post.headD root) ∧
    ((unlink x h).1 (post.headD root)).prev = some (pre.getLastD root) ∧
    (unlink x h).1 x = ⟨none, none⟩ ∧
    (∀ a, a ≠ x → a ≠ pre.getLastD root → a ≠ post.headD root →
      (unlink x h).1 a = h a) ∧
    reps (unlink x h).1 root (pre ++ post) ∧
    (∀ a ∈ pre ++ x :: post, a ≠ x → a ∈ pre ++ post) := by
  obtain ⟨hret, hreps, hj1, hj2, hx0, hframe⟩ := unlink_spec hr
  refine ⟨rfl, hj1, hj2, hx0, hframe, hreps, ?_⟩
  intro a ha hax
  rcases List.mem_append.mp ha with he | he
  · exact List.mem_append_left _ he
  · rcases List.mem_cons.mp he with he2 | he2
    · exact absurd he2 hax
    · exact List.mem_append_right _ he2

/-- Witness for C4 at a concrete input: sentinel 0, list [1, 2, 3],
erasing the middle element 2. -/
theorem erase_invalidates_only_erased_position_witness :
    erase 2 (fun a =>
        if a = 0 then ⟨some 1, some 3⟩
        else if a = 1 then ⟨some 2, some 0⟩
        else if a = 2 then ⟨some 3, some 1⟩
        else if a = 3 then ⟨some 0, some 2⟩
        else ⟨none, none⟩)
      = unlink 2 (fun a =>
        if a = 0 then ⟨some 1, some 3⟩
        else if a = 1 then ⟨some 2, some 0⟩
        else if a = 2 then ⟨some 3, some 1⟩
        else if a = 3 then ⟨some 0, some 2⟩
        else ⟨none, none⟩) ∧
    ((unlink 2 (fun a =>
        if a = 0 then ⟨some 1, some 3⟩
        else if a = 1 then ⟨some 2, some 0⟩
        else if a = 2 then ⟨some 3, some 1⟩
        else if a = 3 then ⟨some 0, some 2⟩
        else ⟨none, none⟩)).1 1).next = some 3 ∧
    ((unlink 2 (fun a =>
        if a = 0 then ⟨some 1, some 3⟩
        else if a = 1 then ⟨some 2, some 0⟩
        else if a = 2 then ⟨some 3, some 1⟩
        else if a = 3 then ⟨some 0, some 2⟩
        else ⟨none, none⟩)).1 3).prev = some 1 ∧
    (unlink 2 (fun a =>
        if a = 0 then ⟨some 1, some 3⟩
        else if a = 1 then ⟨some 2, some 0⟩
        else if a = 2 then ⟨some 3, some 1⟩
        else if a = 3 then ⟨some 0, some 2⟩
        else ⟨none, none⟩)).1 2 = ⟨none, none⟩ ∧
    (∀ a, a ≠ 2 → a ≠ 1 → a ≠ 3 →
      (unlink 2 (fun a =>
        if a = 0 then ⟨some 1, some 3⟩
        else if a = 1 then ⟨some 2, some 0⟩
        else if a = 2 then ⟨some 3, some 1⟩
        else if a = 3 then ⟨some 0, some 2⟩
        else ⟨none, none⟩)).1 a
        = (fun a =>
        if a = 0 then ⟨some 1, some 3⟩
        else if a = 1 then ⟨some 2, some 0⟩
        else if a = 2 then ⟨some 3, some 1⟩
        else if a = 3 then ⟨some 0, some 2⟩
        else ⟨none, none⟩) a) ∧
    reps (unlink 2 (fun a =>
        if a = 0 then ⟨some 1, some 3⟩
        else if a = 1 then ⟨some 2, some 0⟩
        else if a = 2 then ⟨some 3, some 1⟩
        else if a = 3 then ⟨some 0, some 2⟩
        else ⟨none, none⟩)).1 0 [1, 3] ∧
    (∀ a ∈ [1, 2, 3], a ≠ 2 → a ∈ [1, 3]) :=
  erase_invalidates_only_erased_position
    (fun a =>
      if a = 0 then ⟨some 1, some 3⟩
      else if a = 1 then ⟨some 2, some 0⟩
      else if a = 2 then ⟨some 3, some 1⟩
      else if a = 3 then ⟨some 0, some 2⟩
      else ⟨none, none⟩)
    0 2 [1] [3]
    ⟨⟨⟨rfl, rfl⟩, ⟨rfl, rfl⟩, ⟨rfl, rfl⟩, rfl, rfl⟩, by decide⟩

/-- C7: destroying the list while connections are still linked
(`list::clear`, run by the signal's destructor) leaves every former member
fully unlinked and the sentinel empty, so any later `disconnect` /
destructor `unlink` of a connection is a harmless no-op; and destroying a
connection while the list still links it (`~connection` → `disconnect` →
`unlink`) leaves the remaining list well-formed, with the destroyed node
fully unlinked — no dangling references in either direction. -/
theorem destruction_leaves_no_dangling_references
    (h : Heap) (root x f : Nat) (pre post : List Nat)
    (hr : reps h root (pre ++ x :: post))
    (hf : (pre ++ x :: post).length ≤ f) :
    clear f root h root = ⟨some root, some root⟩ ∧
    (∀ a ∈ pre ++ x :: post, clear f root h a = ⟨none, none⟩) ∧
    (∀ a, a ≠ root → a ∉ pre ++ x :: post → clear f root h a = h a) ∧
    (∀ a ∈ pre ++ x :: post, unlink a (clear f root h) = (clear f root h, none)) ∧
    reps (unlink x h).1 root (pre ++ post) ∧
    (unlink x h).1 x = ⟨none, none⟩ := by
  obtain ⟨hc1, hc2, hc3⟩ := clear_spec hr hf
  obtain ⟨_, hreps, _, _, hx0, _⟩ := unlink_spec hr
  exact ⟨hc1, hc2, hc3, fun a ha => unlink_unlinked (hc2 a ha), hreps, hx0⟩

/-- Witness for C7 at a concrete input: sentinel 0, list [1, 2, 3]. -/
theorem destruction_leaves_no_dangling_references_witness :
    clear 3 0 (fun a =>
        if a = 0 then ⟨some 1, some 3⟩
        else if a = 1 then ⟨some 2, some 0⟩
        else if a = 2 then ⟨some 3, some 1⟩
        else if a = 3 then ⟨some 0, some 2⟩
        else ⟨none, none⟩) 0 = ⟨some 0, some 0⟩ ∧
    (∀ a ∈ [1, 2, 3], clear 3 0 (fun a =>
        if a = 0 then ⟨some 1, some 3⟩
        else if a = 1 then ⟨some 2, some 0⟩
        else if a = 2 then ⟨some 3, some 1⟩
        else if a = 3 then ⟨some 0, some 2⟩
        else ⟨none, none⟩) a = ⟨none, none⟩) ∧
    (∀ a, a ≠ 0 → a ∉ [1, 2, 3] → clear 3 0 (fun a =>
        if a = 0 then ⟨some 1, some 3⟩
        else if a = 1 then ⟨some 2, some 0⟩
        else if a = 2 then ⟨some 3, some 1⟩
        else if a = 3 then ⟨some 0, some 2⟩
        else ⟨none, none⟩) a
      = (fun a =>
        if a = 0 then ⟨some 1, some 3⟩
        else if a = 1 then ⟨some 2, some 0⟩
        else if a = 2 then ⟨some 3, some 1⟩
        else if a = 3 then ⟨some 0, some 2⟩
        else ⟨none, none⟩) a) ∧
    (∀ a ∈ [1, 2, 3],
      unlink a (clear 3 0 (fun a =>
        if a = 0 then ⟨some 1, some 3⟩
        else if a = 1 then ⟨some 2, some 0⟩
        else if a = 2 then ⟨some 3, some 1⟩
        else if a = 3 then ⟨some 0, some 2⟩
        else ⟨none, none⟩))
        = (clear 3 0 (fun a =>
        if a = 0 then ⟨some 1, some 3⟩
        else if a = 1 then ⟨some 2, some 0⟩
        else if a = 2 then ⟨some 3, some 1⟩
        else if a = 3 then ⟨some 0, some 2⟩
        else ⟨none, none⟩), none)) ∧
    reps (unlink 2 (fun a =>
        if a = 0 then ⟨some 1, some 3⟩
        else if a = 1 then ⟨some 2, some 0⟩
        else if a = 2 then ⟨some 3, some 1⟩
        else if a = 3 then ⟨some 0, some 2⟩
        else ⟨none, none⟩)).1 0 [1, 3] ∧
    (unlink 2 (fun a =>
        if a = 0 then ⟨some 1, some 3⟩
        else if a = 1 then ⟨some 2, some 0⟩
        else if a = 2 then ⟨some 3, some 1⟩
        else if a = 3 then ⟨some 0, some 2⟩
        else ⟨none, none⟩)).1 2 = ⟨none, none⟩ :=
  destruction_leaves_no_dangling_references
    (fun a =>
      if a = 0 then ⟨some 1, some 3⟩
      else if a = 1 then ⟨some 2, some 0⟩
      else if a = 2 then ⟨some 3, some 1⟩
      else if a = 3 then ⟨some 0, some 2⟩
      else ⟨none, none⟩)
    0 2 3 [1] [3]
    ⟨⟨⟨rfl, rfl⟩, ⟨rfl, rfl⟩, ⟨rfl, rfl⟩, rfl, rfl⟩, by decide⟩
    (by decide)

end IntrusiveSpec
